import Mathlib

/-!
Verification of the streaming-protocol normalization layer of the
meeting-minutes repository (`src/frontend/src-tauri/src/summary/llm_client.rs`
and `src/frontend/src-tauri/src/chat/processor.rs`).

Text is modelled as `List Char` (Rust `String`), byte streams as `List Nat`
(each entry one byte, `< 256`).  Machine integers that the code never
overflows are modelled as `Nat`; the one addition where overflow matters
(`input_tokens + output_tokens` on `u32`) carries an explicit `% 2^32`.

The SSE decoding loop of `stream_chat_openai_compatible` /
`stream_chat_claude` keeps an append-only text buffer and repeatedly splits
off the part before the first `"\n\n"`:

    while let Some(line_end) = buffer.find("\n\n") {
        let block = buffer[..line_end].to_string();
        buffer = buffer[line_end + 2..].to_string();
        ... process block ...
    }

`splitBlock` is that `find`/split step, `drain` is the `while` loop
(processing never writes the buffer, so collecting all complete blocks first
is equivalent to the interleaved loop).
-/

/-- `buffer.find("\n\n")` followed by the two slices: the part strictly before
the first `"\n\n"` occurrence and the part strictly after it. -/
def splitBlock : List Char → Option (List Char × List Char)
  | [] => none
  | [_] => none
  | a :: b :: rest =>
    if a = '\n' ∧ b = '\n' then some ([], rest)
    else
      match splitBlock (b :: rest) with
      | some (blk, r) => some (a :: blk, r)
      | none => none

theorem splitBlock_length {a blk r : List Char} (h : splitBlock a = some (blk, r)) :
    a.length = blk.length + r.length + 2 := by
  induction a generalizing blk r with
  | nil => simp [splitBlock] at h
  | cons x xs ih =>
    match xs with
    | [] => simp [splitBlock] at h
    | y :: ys =>
      by_cases hx : x = '\n' ∧ y = '\n'
      · simp [splitBlock, hx] at h
        obtain ⟨h1, h2⟩ := h
        subst h1; subst h2
        simp only [List.length_cons, List.length_nil]
        omega
      · simp only [splitBlock, if_neg hx] at h
        cases hsub : splitBlock (y :: ys) with
        | none => rw [hsub] at h; simp at h
        | some p =>
          obtain ⟨blk', r'⟩ := p
          rw [hsub] at h
          simp at h
          obtain ⟨h1, h2⟩ := h
          subst h1; subst h2
          have := ih hsub
          simp [List.length] at this ⊢
          omega

theorem splitBlock_append {a blk r : List Char} (b : List Char)
    (h : splitBlock a = some (blk, r)) :
    splitBlock (a ++ b) = some (blk, r ++ b) := by
  induction a generalizing blk r with
  | nil => simp [splitBlock] at h
  | cons x xs ih =>
    match xs with
    | [] => simp [splitBlock] at h
    | y :: ys =>
      by_cases hx : x = '\n' ∧ y = '\n'
      · simp [splitBlock, hx] at h
        obtain ⟨h1, h2⟩ := h
        subst h1; subst h2
        simp [List.cons_append, splitBlock, hx]
      · simp only [splitBlock, if_neg hx] at h
        cases hsub : splitBlock (y :: ys) with
        | none => rw [hsub] at h; simp at h
        | some p =>
          obtain ⟨blk', r'⟩ := p
          rw [hsub] at h
          simp at h
          obtain ⟨h1, h2⟩ := h
          subst h1; subst h2
          have := ih hsub
          simp only [List.cons_append, splitBlock, if_neg hx, List.append_eq] at this ⊢
          rw [this]

/-- Fuel-indexed version of the `while let Some(line_end) = buffer.find("\n\n")`
loop: returns the complete blocks in order and the remaining buffer. -/
def drainF : Nat → List Char → List (List Char) × List Char
  | 0, a => ([], a)
  | fuel + 1, a =>
    match splitBlock a with
    | none => ([], a)
    | some (blk, r) =>
      let p := drainF fuel r
      (blk :: p.1, p.2)

/-- The SSE buffer-draining loop (`buffer.length` is always enough fuel). -/
def drain (a : List Char) : List (List Char) × List Char :=
  drainF a.length a

theorem drainF_irrel {f1 f2 : Nat} {a : List Char}
    (h1 : a.length ≤ f1) (h2 : a.length ≤ f2) : drainF f1 a = drainF f2 a := by
  induction f1 generalizing f2 a with
  | zero =>
    have : a = [] := List.eq_nil_of_length_eq_zero (Nat.le_zero.mp h1)
    subst this
    cases f2 with
    | zero => rfl
    | succ n => simp [drainF, splitBlock]
  | succ n ih =>
    cases f2 with
    | zero =>
      have : a = [] := List.eq_nil_of_length_eq_zero (Nat.le_zero.mp h2)
      subst this
      simp [drainF, splitBlock]
    | succ m =>
      simp only [drainF]
      cases hsb : splitBlock a with
      | none => rfl
      | some p =>
        obtain ⟨blk, r⟩ := p
        have hlen := splitBlock_length hsb
        have h2 : drainF n r = drainF m r := @ih m r (by omega) (by omega)
        simp [h2]

theorem drain_none {a : List Char} (h : splitBlock a = none) : drain a = ([], a) := by
  unfold drain
  cases hl : a.length with
  | zero => rfl
  | succ n => simp [drainF, h]

theorem drain_some {a blk r : List Char} (h : splitBlock a = some (blk, r)) :
    drain a = (blk :: (drain r).1, (drain r).2) := by
  unfold drain
  have hlen := splitBlock_length h
  cases hl : a.length with
  | zero => omega
  | succ n =>
    simp only [drainF, h]
    have : drainF n r = drainF r.length r := drainF_irrel (by omega) (le_refl _)
    rw [this]

theorem drain_append (a b : List Char) :
    drain (a ++ b) =
      ((drain a).1 ++ (drain ((drain a).2 ++ b)).1, (drain ((drain a).2 ++ b)).2) := by
  cases hsb : splitBlock a with
  | none =>
    rw [drain_none hsb]
    simp
  | some p =>
    obtain ⟨blk, r⟩ := p
    have hlen := splitBlock_length hsb
    rw [drain_some hsb, drain_some (splitBlock_append b hsb)]
    have ih := drain_append r b
    rw [ih]
    simp
termination_by a.length
decreasing_by omega

theorem splitBlock_drain_rest (a : List Char) : splitBlock (drain a).2 = none := by
  cases hsb : splitBlock a with
  | none => rw [drain_none hsb]; exact hsb
  | some p =>
    obtain ⟨blk, r⟩ := p
    have hlen := splitBlock_length hsb
    rw [drain_some hsb]
    exact splitBlock_drain_rest r
termination_by a.length
decreasing_by omega

/-!
Rust `str::lines()`: split on `'\n'` with terminator semantics (a trailing
newline does not yield a final empty line) and a trailing `'\r'` stripped
from every line.
-/

/-- Split on `'\n'` (separator semantics; used to build `linesRust`). -/
def splitNewline : List Char → List (List Char)
  | [] => [[]]
  | c :: rest =>
    if c = '\n' then [] :: splitNewline rest
    else
      match splitNewline rest with
      | [] => [[c]]
      | l :: ls => (c :: l) :: ls

/-- Strip one trailing `'\r'`, as Rust `lines()` does to each line. -/
def stripCR (l : List Char) : List Char :=
  if l.getLast? = some '\r' then l.dropLast else l

/-- Rust `str::lines()`. -/
def linesRust (s : List Char) : List (List Char) :=
  let parts := splitNewline s
  let parts := if parts.getLast? = some [] then parts.dropLast else parts
  parts.map stripCR

/-- Rust `str::trim()` (the code only ever meets ASCII whitespace). -/
def trimRust (s : List Char) : List Char :=
  ((s.dropWhile Char.isWhitespace).reverse.dropWhile Char.isWhitespace).reverse

/-- `"data: "` -/
def dataMark : List Char := 'd' :: 'a' :: 't' :: 'a' :: ':' :: ' ' :: []

/-- `"event: "` -/
def eventMark : List Char := 'e' :: 'v' :: 'e' :: 'n' :: 't' :: ':' :: ' ' :: []

/-- `line.starts_with("data: ")` -/
def isDataLine (l : List Char) : Bool := l.take 6 = dataMark

/-- `line.starts_with("event: ")` -/
def isEventLine (l : List Char) : Bool := l.take 7 = eventMark

/-- `"[DONE]"` -/
def doneMark : List Char := '[' :: 'D' :: 'O' :: 'N' :: 'E' :: ']' :: []

/-- The `for sse_line in line.lines()` body of `stream_chat_openai_compatible`
restricted to payload extraction: keep the text after `"data: "` of every
data line, stopping at a `[DONE]` payload (the `break`). -/
def dataPayloads : List (List Char) → List (List Char)
  | [] => []
  | l :: ls =>
    if isDataLine l then
      let payload := l.drop 6
      if trimRust payload = doneMark then []
      else payload :: dataPayloads ls
    else dataPayloads ls

/-- Payloads of one SSE block (OpenAI-compatible loop). -/
def blockDatas (block : List Char) : List (List Char) :=
  dataPayloads (linesRust block)

/-- The `for line in block.lines()` loop of `stream_chat_claude`: the last
`"event: "` line and the last `"data: "` line of a block (each assignment
overwrites the previous one). -/
def claudeFields (block : List Char) : Option (List Char) × Option (List Char) :=
  (linesRust block).foldl
    (fun acc l =>
      if isEventLine l then (some (l.drop 7), acc.2)
      else if isDataLine l then (acc.1, some (l.drop 6))
      else acc)
    (none, none)

/-!
The incremental decode loop: each network chunk is appended to the buffer
and the buffer is drained; the trailing partial block is kept in the buffer
(and silently discarded at stream end).
-/

/-- One loop iteration at the block level: append, drain, collect. -/
def feedChunk (st : List (List Char) × List Char) (c : List Char) :
    List (List Char) × List Char :=
  (st.1 ++ (drain (st.2 ++ c)).1, (drain (st.2 ++ c)).2)

/-- All complete SSE blocks produced when the text arrives as `chunks`. -/
def sseBlocks (chunks : List (List Char)) : List (List Char) :=
  (chunks.foldl feedChunk ([], [])).1

theorem foldl_feedChunk (chunks : List (List Char)) (st : List (List Char) × List Char)
    (h : splitBlock st.2 = none) :
    chunks.foldl feedChunk st =
      (st.1 ++ (drain (st.2 ++ chunks.flatten)).1, (drain (st.2 ++ chunks.flatten)).2) := by
  induction chunks generalizing st with
  | nil =>
    simp [drain_none h]
  | cons c cs ih =>
    simp only [List.foldl_cons]
    rw [ih (feedChunk st c) (splitBlock_drain_rest _)]
    simp only [feedChunk, List.flatten_cons, ← List.append_assoc]
    rw [drain_append (st.2 ++ c) cs.flatten]
    simp

theorem sseBlocks_eq_single (chunks : List (List Char)) :
    sseBlocks chunks = sseBlocks [chunks.flatten] := by
  unfold sseBlocks
  rw [foldl_feedChunk chunks ([], []) (by simp [splitBlock])]
  rw [foldl_feedChunk [chunks.flatten] ([], []) (by simp [splitBlock])]
  simp

/-!
`String::from_utf8_lossy`, modelled on byte lists (`Nat` entries, one byte
each).  Invalid sequences are replaced by U+FFFD following the
"substitution of maximal subparts" policy of Rust std: when an unexpected
byte ends a partial sequence, the bytes consumed so far yield one
replacement character and scanning resumes at the unexpected byte.
-/

/-- U+FFFD -/
def replChar : Char := Char.ofNat 0xFFFD

/-- Is `b` a UTF-8 continuation byte (`0x80..=0xBF`)? -/
def isContByte (b : Nat) : Bool := 0x80 ≤ b ∧ b ≤ 0xBF

/-- Allowed range of the second byte of a three-byte sequence headed by `b`. -/
def isSnd3 (b c : Nat) : Bool :=
  if b = 0xE0 then 0xA0 ≤ c ∧ c ≤ 0xBF
  else if b = 0xED then 0x80 ≤ c ∧ c ≤ 0x9F
  else isContByte c

/-- Allowed range of the second byte of a four-byte sequence headed by `b`. -/
def isSnd4 (b c : Nat) : Bool :=
  if b = 0xF0 then 0x90 ≤ c ∧ c ≤ 0xBF
  else if b = 0xF4 then 0x80 ≤ c ∧ c ≤ 0x8F
  else isContByte c

/-- Decode one character (or one replacement) starting at byte `b`; returns
the character and how many bytes of `rest` it consumed beyond `b`. -/
def utf8Step (b : Nat) (rest : List Nat) : Char × Nat :=
  if b ≤ 0x7F then (Char.ofNat b, 0)
  else if 0xC2 ≤ b ∧ b ≤ 0xDF then
    match rest with
    | c :: _ =>
      if isContByte c then (Char.ofNat ((b - 0xC0) * 0x40 + (c - 0x80)), 1)
      else (replChar, 0)
    | [] => (replChar, 0)
  else if 0xE0 ≤ b ∧ b ≤ 0xEF then
    match rest with
    | c1 :: c2 :: _ =>
      if isSnd3 b c1 then
        if isContByte c2 then
          (Char.ofNat ((b - 0xE0) * 0x1000 + (c1 - 0x80) * 0x40 + (c2 - 0x80)), 2)
        else (replChar, 1)
      else (replChar, 0)
    | [c1] => if isSnd3 b c1 then (replChar, 1) else (replChar, 0)
    | [] => (replChar, 0)
  else if 0xF0 ≤ b ∧ b ≤ 0xF4 then
    match rest with
    | c1 :: c2 :: c3 :: _ =>
      if isSnd4 b c1 then
        if isContByte c2 then
          if isContByte c3 then
            (Char.ofNat
              ((b - 0xF0) * 0x40000 + (c1 - 0x80) * 0x1000 +
                (c2 - 0x80) * 0x40 + (c3 - 0x80)), 3)
          else (replChar, 2)
        else (replChar, 1)
      else (replChar, 0)
    | [c1, c2] =>
      if isSnd4 b c1 then
        if isContByte c2 then (replChar, 2) else (replChar, 1)
      else (replChar, 0)
    | [c1] => if isSnd4 b c1 then (replChar, 1) else (replChar, 0)
    | [] => (replChar, 0)
  else (replChar, 0)

/-- Fuel-indexed decoding loop (the input length is always enough fuel). -/
def utf8LossyF : Nat → List Nat → List Char
  | 0, _ => []
  | _ + 1, [] => []
  | fuel + 1, b :: rest =>
    (utf8Step b rest).1 :: utf8LossyF fuel (rest.drop (utf8Step b rest).2)

/-- `String::from_utf8_lossy` on a byte list. -/
def utf8Lossy (l : List Nat) : List Char := utf8LossyF l.length l

/-!
The fragmentation-invariance property (claim C1).  `sseDecodeOpenAI` /
`sseDecodeClaude` give the per-block extraction results of the two decoding
loops when the stream text arrives as the given chunks; the byte-level
versions compose with the per-chunk `from_utf8_lossy` conversion exactly as
the source does (`let chunk_str = String::from_utf8_lossy(&chunk);
buffer.push_str(&chunk_str);`).
-/

/-- Data payloads extracted by the OpenAI-compatible loop, text-chunk level. -/
def sseDecodeOpenAI (chunks : List (List Char)) : List (List Char) :=
  ((sseBlocks chunks).map blockDatas).flatten

/-- `event:`/`data:` fields extracted by the Claude loop, text-chunk level
(blocks with neither field are dropped, matching "a block with no recognized
lines (ignored)"). -/
def sseDecodeClaude (chunks : List (List Char)) :
    List (Option (List Char) × Option (List Char)) :=
  ((sseBlocks chunks).map claudeFields).filter
    (fun p => p.1.isSome || p.2.isSome)

/-- Byte-stream version of the OpenAI-compatible decode loop. -/
def sseDecodeBytesOpenAI (chunks : List (List Nat)) : List (List Char) :=
  sseDecodeOpenAI (chunks.map utf8Lossy)

/-- Byte-stream version of the Claude decode loop. -/
def sseDecodeBytesClaude (chunks : List (List Nat)) :
    List (Option (List Char) × Option (List Char)) :=
  sseDecodeClaude (chunks.map utf8Lossy)

/-- C1 counterexample input: the bytes of `"data: é\n\n"` split between the
two bytes `0xC3 0xA9` of `é`. -/
def c1SplitBytes : List (List Nat) :=
  [[0x64, 0x61, 0x74, 0x61, 0x3A, 0x20, 0xC3], [0xA9, 0x0A, 0x0A]]

/-- C1 counterexample input: the same bytes delivered as a single chunk. -/
def c1WholeBytes : List (List Nat) :=
  [[0x64, 0x61, 0x74, 0x61, 0x3A, 0x20, 0xC3, 0xA9, 0x0A, 0x0A]]

/-- C1 (counterexample). The claim quantifies over every byte stream and
every split into chunks, but the loop converts each chunk separately with
`String::from_utf8_lossy` before appending it to the text buffer
(llm_client.rs line 1119): splitting the two-byte UTF-8 character `é`
across a chunk boundary turns it into two U+FFFD replacement characters,
so the extracted payload differs from the single-chunk decode. -/
theorem sse_fragmentation_bytes_counterexample :
    sseDecodeBytesOpenAI c1SplitBytes ≠ sseDecodeBytesOpenAI c1WholeBytes := by
  decide

/-- C1 (amended). For every chunking of the stream *text* — equivalently,
for every split of the byte stream at UTF-8 character boundaries — both
decoding loops (OpenAI-compatible `data:` extraction with the `[DONE]`
break, and the Claude `event:`/`data:` extraction ignoring blocks with no
recognized line) produce exactly the payload sequence of the single-chunk
decode. -/
theorem sse_fragmentation_invariance (chunks : List (List Char)) :
    sseDecodeOpenAI chunks = sseDecodeOpenAI [chunks.flatten] ∧
      sseDecodeClaude chunks = sseDecodeClaude [chunks.flatten] := by
  unfold sseDecodeOpenAI sseDecodeClaude
  rw [sseBlocks_eq_single]
  exact ⟨rfl, rfl⟩

/-!
A model of `serde_json::from_str`: a JSON value grammar (ws, null, bools,
numbers, strings with escapes, arrays, objects) followed by the
derived-`Deserialize` field extraction of the response structs.  A number
with a fraction or exponent is a float; no deserialized field of the
response structs is a float, so float values are not tracked (extracting an
integer field from a float fails, as in serde).
-/

inductive Json where
  | null : Json
  | jb : Bool → Json
  | jint : Int → Json
  | jnum : Json
  | jstr : List Char → Json
  | jarr : List Json → Json
  | jobj : List (List Char × Json) → Json

/-- JSON insignificant whitespace. -/
def jsonWs (c : Char) : Bool := c = ' ' ∨ c = '\t' ∨ c = '\n' ∨ c = '\r'

def skipWs (s : List Char) : List Char := s.dropWhile jsonWs

def hexVal (c : Char) : Option Nat :=
  if '0' ≤ c ∧ c ≤ '9' then some (c.toNat - 48)
  else if 'a' ≤ c ∧ c ≤ 'f' then some (c.toNat - 87)
  else if 'A' ≤ c ∧ c ≤ 'F' then some (c.toNat - 55)
  else none

def hex4 (h1 h2 h3 h4 : Char) : Option Nat := do
  let a ← hexVal h1
  let b ← hexVal h2
  let c ← hexVal h3
  let d ← hexVal h4
  pure (((a * 16 + b) * 16 + c) * 16 + d)

/-- Single-character string escapes. -/
def escChar : Char → Option Char
  | '"' => some '"'
  | '\\' => some '\\'
  | '/' => some '/'
  | 'b' => some (Char.ofNat 8)
  | 'f' => some (Char.ofNat 12)
  | 'n' => some '\n'
  | 'r' => some '\r'
  | 't' => some '\t'
  | _ => none

/-- Body of a JSON string after the opening quote: the decoded characters
and the rest of the input after the closing quote. -/
def parseStrBody : List Char → Option (List Char × List Char)
  | [] => none
  | '"' :: rest => some ([], rest)
  | '\\' :: esc =>
    match esc with
    | [] => none
    | 'u' :: h1 :: h2 :: h3 :: h4 :: rest => do
      let n ← hex4 h1 h2 h3 h4
      if n < 0xD800 ∨ 0xE000 ≤ n then do
        let p ← parseStrBody rest
        pure (Char.ofNat n :: p.1, p.2)
      else if n ≤ 0xDBFF then
        match rest with
        | '\\' :: 'u' :: g1 :: g2 :: g3 :: g4 :: rest2 => do
          let m ← hex4 g1 g2 g3 g4
          if 0xDC00 ≤ m ∧ m ≤ 0xDFFF then do
            let p ← parseStrBody rest2
            pure (Char.ofNat (0x10000 + (n - 0xD800) * 0x400 + (m - 0xDC00)) :: p.1, p.2)
          else none
        | _ => none
      else none
    | c :: rest =>
      match escChar c with
      | some e => (parseStrBody rest).map (fun p => (e :: p.1, p.2))
      | none => none
  | c :: rest =>
    if c.toNat < 0x20 then none
    else (parseStrBody rest).map (fun p => (c :: p.1, p.2))

def digVal (c : Char) : Option Nat :=
  if '0' ≤ c ∧ c ≤ '9' then some (c.toNat - 48) else none

/-- Greedily take decimal digits. -/
def takeDigits : List Char → List Nat × List Char
  | [] => ([], [])
  | c :: rest =>
    match digVal c with
    | some d =>
      let p := takeDigits rest
      (d :: p.1, p.2)
    | none => ([], c :: rest)

/-- A JSON number (first character is `-` or a digit): integers are kept
exactly, anything with a fraction or exponent becomes the float `jnum`. -/
def parseNumber (s : List Char) : Option (Json × List Char) :=
  let neg : Bool := s.head? = some '-'
  let s1 := if neg then s.tail else s
  match s1 with
  | [] => none
  | c :: rest =>
    match digVal c with
    | none => none
    | some d =>
      let p := if d = 0 then ([], rest) else takeDigits rest
      let intVal : Nat := p.1.foldl (fun a x => a * 10 + x) d
      let s2 := p.2
      let fracStep : Option (Bool × List Char) :=
        match s2 with
        | '.' :: r =>
          match takeDigits r with
          | ([], _) => none
          | (_ :: _, r2) => some (true, r2)
        | _ => some (false, s2)
      match fracStep with
      | none => none
      | some (hasFrac, s3) =>
        let expStep : Option (Bool × List Char) :=
          match s3 with
          | e :: r =>
            if e = 'e' ∨ e = 'E' then
              let r2 :=
                match r with
                | sg :: rr => if sg = '+' ∨ sg = '-' then rr else r
                | [] => r
              match takeDigits r2 with
              | ([], _) => none
              | (_ :: _, r3) => some (true, r3)
            else some (false, s3)
          | [] => some (false, s3)
        match expStep with
        | none => none
        | some (hasExp, s4) =>
          if hasFrac ∨ hasExp then some (Json.jnum, s4)
          else some (Json.jint (if neg then -(intVal : Int) else (intVal : Int)), s4)

/-- Consume an exact keyword. -/
def expectChars : List Char → List Char → Option (List Char)
  | [], s => some s
  | k :: ks, c :: s => if k = c then expectChars ks s else none
  | _ :: _, [] => none

mutual

/-- One JSON value; the input is whitespace-skipped at entry. -/
def parseValue : Nat → List Char → Option (Json × List Char)
  | 0, _ => none
  | fuel + 1, s =>
    match s with
    | [] => none
    | c :: rest =>
      if c = 'n' then (expectChars ('u' :: 'l' :: 'l' :: []) rest).map (fun r => (Json.null, r))
      else if c = 't' then (expectChars ('r' :: 'u' :: 'e' :: []) rest).map (fun r => (Json.jb true, r))
      else if c = 'f' then
        (expectChars ('a' :: 'l' :: 's' :: 'e' :: []) rest).map (fun r => (Json.jb false, r))
      else if c = '"' then (parseStrBody rest).map (fun p => (Json.jstr p.1, p.2))
      else if c = '[' then
        match skipWs rest with
        | ']' :: r => some (Json.jarr [], r)
        | s1 => parseItems fuel s1 []
      else if c = '{' then
        match skipWs rest with
        | '}' :: r => some (Json.jobj [], r)
        | s1 => parseMembers fuel s1 []
      else if c = '-' ∨ (digVal c).isSome then parseNumber (c :: rest)
      else none

/-- Array elements after `[`, at least one (the empty array is handled by
`parseValue`). -/
def parseItems : Nat → List Char → List Json → Option (Json × List Char)
  | 0, _, _ => none
  | fuel + 1, s, acc => do
    let p ← parseValue fuel s
    match skipWs p.2 with
    | ',' :: r2 => parseItems fuel (skipWs r2) (acc ++ [p.1])
    | ']' :: r2 => some (Json.jarr (acc ++ [p.1]), r2)
    | _ => none

/-- Object members after `{`, at least one. -/
def parseMembers : Nat → List Char → List (List Char × Json) → Option (Json × List Char)
  | 0, _, _ => none
  | fuel + 1, s, acc =>
    match s with
    | '"' :: r => do
      let kp ← parseStrBody r
      match skipWs kp.2 with
      | ':' :: r2 => do
        let vp ← parseValue fuel (skipWs r2)
        match skipWs vp.2 with
        | ',' :: r4 => parseMembers fuel (skipWs r4) (acc ++ [(kp.1, vp.1)])
        | '}' :: r4 => some (Json.jobj (acc ++ [(kp.1, vp.1)]), r4)
        | _ => none
      | _ => none
    | _ => none

end

/-- `serde_json::from_str` down to the JSON value: the whole input must be
one value surrounded by whitespace. -/
def parseJsonText (s : List Char) : Option Json := do
  let top := skipWs s
  let p ← parseValue (2 * top.length + 2) top
  if skipWs p.2 = [] then some p.1 else none

/-!
The streaming response structures of llm_client.rs and their derived
deserializers.  serde semantics for the derived structs: unknown fields are
ignored, a missing or null `Option` field is `None`, a wrong-typed field is
an error, a missing non-`Option` field is an error, `choices` carries
`#[serde(default)]` so a missing `choices` is the empty vector.
-/

structure StreamDelta where
  content : Option (List Char)
  role : Option (List Char)
deriving DecidableEq

structure StreamChoice where
  delta : StreamDelta
  finish_reason : Option (List Char)
deriving DecidableEq

structure StreamUsageResponse where
  prompt_tokens : Option Nat
  completion_tokens : Option Nat
  total_tokens : Option Nat
deriving DecidableEq

structure StreamChatChunk where
  choices : List StreamChoice
  usage : Option StreamUsageResponse
  created : Option Int
deriving DecidableEq

structure StreamUsage where
  prompt_tokens : Option Nat
  completion_tokens : Option Nat
  total_tokens : Option Nat
deriving DecidableEq

structure ClaudeUsageDelta where
  input_tokens : Option Nat
  output_tokens : Option Nat
deriving DecidableEq

structure ClaudeMessageStart where
  id : List Char
  model : List Char
  role : List Char
  usage : ClaudeUsageDelta
deriving DecidableEq

structure ClaudeContentDelta where
  delta_type : List Char
  text : List Char
deriving DecidableEq

structure ClaudeMessageDelta where
  stop_reason : Option (List Char)
deriving DecidableEq

structure ClaudeError where
  error_type : List Char
  message : List Char
deriving DecidableEq

inductive ClaudeStreamEvent where
  | MessageStart (message : ClaudeMessageStart)
  | ContentBlockStart (block_type : List Char) (text : Option (List Char))
  | ContentBlockDelta (delta : ClaudeContentDelta)
  | ContentBlockStop
  | MessageDelta (delta : ClaudeMessageDelta) (usage : ClaudeUsageDelta)
  | MessageStop
  | Error (error : ClaudeError)
  | Ping
deriving DecidableEq

/-- First field of the given name (serde reads fields by name). -/
def getField (fs : List (List Char × Json)) (k : List Char) : Option Json :=
  match fs.find? (fun p => p.1 = k) with
  | some p => some p.2
  | none => none

/-- `Option<String>` field: missing and null are `None`, a string is `Some`,
anything else is a deserialization error (outer `none`). -/
def optStrField (fs : List (List Char × Json)) (k : List Char) :
    Option (Option (List Char)) :=
  match getField fs k with
  | none => some none
  | some Json.null => some none
  | some (Json.jstr s) => some (some s)
  | some _ => none

/-- `Option<u32>` field. -/
def optU32Field (fs : List (List Char × Json)) (k : List Char) :
    Option (Option Nat) :=
  match getField fs k with
  | none => some none
  | some Json.null => some none
  | some (Json.jint n) => if 0 ≤ n ∧ n < 2 ^ 32 then some (some n.toNat) else none
  | some _ => none

/-- `Option<i64>` field. -/
def optI64Field (fs : List (List Char × Json)) (k : List Char) :
    Option (Option Int) :=
  match getField fs k with
  | none => some none
  | some Json.null => some none
  | some (Json.jint n) => if -(2 ^ 63) ≤ n ∧ n < 2 ^ 63 then some (some n) else none
  | some _ => none

/-- Required `String` field. -/
def reqStrField (fs : List (List Char × Json)) (k : List Char) :
    Option (List Char) :=
  match getField fs k with
  | some (Json.jstr s) => some s
  | _ => none

def parseStreamDelta (j : Json) : Option StreamDelta :=
  match j with
  | Json.jobj fs => do
    let content ← optStrField fs ('c' :: 'o' :: 'n' :: 't' :: 'e' :: 'n' :: 't' :: [])
    let role ← optStrField fs ('r' :: 'o' :: 'l' :: 'e' :: [])
    pure ⟨content, role⟩
  | _ => none

def parseStreamChoice (j : Json) : Option StreamChoice :=
  match j with
  | Json.jobj fs => do
    let dj ← getField fs ('d' :: 'e' :: 'l' :: 't' :: 'a' :: [])
    let delta ← parseStreamDelta dj
    let fr ← optStrField fs
      ('f' :: 'i' :: 'n' :: 'i' :: 's' :: 'h' :: '_' :: 'r' :: 'e' :: 'a' :: 's' :: 'o' :: 'n' :: [])
    pure ⟨delta, fr⟩
  | _ => none

def parseStreamUsageResponse (j : Json) : Option StreamUsageResponse :=
  match j with
  | Json.jobj fs => do
    let p ← optU32Field fs ('p' :: 'r' :: 'o' :: 'm' :: 'p' :: 't' :: '_' :: 't' :: 'o' :: 'k' :: 'e' :: 'n' :: 's' :: [])
    let c ← optU32Field fs ('c' :: 'o' :: 'm' :: 'p' :: 'l' :: 'e' :: 't' :: 'i' :: 'o' :: 'n' :: '_' :: 't' :: 'o' :: 'k' :: 'e' :: 'n' :: 's' :: [])
    let t ← optU32Field fs ('t' :: 'o' :: 't' :: 'a' :: 'l' :: '_' :: 't' :: 'o' :: 'k' :: 'e' :: 'n' :: 's' :: [])
    pure ⟨p, c, t⟩
  | _ => none

/-- `serde_json::from_str::<StreamChatChunk>` given the parsed JSON value. -/
def parseStreamChatChunk (j : Json) : Option StreamChatChunk :=
  match j with
  | Json.jobj fs => do
    let choices ←
      match getField fs ('c' :: 'h' :: 'o' :: 'i' :: 'c' :: 'e' :: 's' :: []) with
      | none => some []
      | some (Json.jarr xs) => xs.mapM parseStreamChoice
      | some _ => none
    let usage ←
      match getField fs ('u' :: 's' :: 'a' :: 'g' :: 'e' :: []) with
      | none => some none
      | some Json.null => some none
      | some u => (parseStreamUsageResponse u).map some
    let created ← optI64Field fs ('c' :: 'r' :: 'e' :: 'a' :: 't' :: 'e' :: 'd' :: [])
    pure ⟨choices, usage, created⟩
  | _ => none

def parseClaudeUsageDelta (j : Json) : Option ClaudeUsageDelta :=
  match j with
  | Json.jobj fs => do
    let i ← optU32Field fs ('i' :: 'n' :: 'p' :: 'u' :: 't' :: '_' :: 't' :: 'o' :: 'k' :: 'e' :: 'n' :: 's' :: [])
    let o ← optU32Field fs ('o' :: 'u' :: 't' :: 'p' :: 'u' :: 't' :: '_' :: 't' :: 'o' :: 'k' :: 'e' :: 'n' :: 's' :: [])
    pure ⟨i, o⟩
  | _ => none

def parseClaudeMessageStart (j : Json) : Option ClaudeMessageStart :=
  match j with
  | Json.jobj fs => do
    let i ← reqStrField fs ('i' :: 'd' :: [])
    let m ← reqStrField fs ('m' :: 'o' :: 'd' :: 'e' :: 'l' :: [])
    let r ← reqStrField fs ('r' :: 'o' :: 'l' :: 'e' :: [])
    let uj ← getField fs ('u' :: 's' :: 'a' :: 'g' :: 'e' :: [])
    let u ← parseClaudeUsageDelta uj
    pure ⟨i, m, r, u⟩
  | _ => none

/-- `serde_json::from_str::<ClaudeStreamEvent>` (internally tagged on
`"type"`) given the parsed JSON value. -/
def parseClaudeStreamEvent (j : Json) : Option ClaudeStreamEvent :=
  match j with
  | Json.jobj fs => do
    let tag ← reqStrField fs ('t' :: 'y' :: 'p' :: 'e' :: [])
    if tag = ('m' :: 'e' :: 's' :: 's' :: 'a' :: 'g' :: 'e' :: '_' :: 's' :: 't' :: 'a' :: 'r' :: 't' :: []) then do
      let mj ← getField fs ('m' :: 'e' :: 's' :: 's' :: 'a' :: 'g' :: 'e' :: [])
      let m ← parseClaudeMessageStart mj
      pure (ClaudeStreamEvent.MessageStart m)
    else if tag = ('c' :: 'o' :: 'n' :: 't' :: 'e' :: 'n' :: 't' :: '_' :: 'b' :: 'l' :: 'o' :: 'c' :: 'k' :: '_' :: 's' :: 't' :: 'a' :: 'r' :: 't' :: []) then do
      let cj ← getField fs ('c' :: 'o' :: 'n' :: 't' :: 'e' :: 'n' :: 't' :: '_' :: 'b' :: 'l' :: 'o' :: 'c' :: 'k' :: [])
      match cj with
      | Json.jobj cfs => do
        let bt ← reqStrField cfs ('t' :: 'y' :: 'p' :: 'e' :: [])
        let tx ← optStrField cfs ('t' :: 'e' :: 'x' :: 't' :: [])
        pure (ClaudeStreamEvent.ContentBlockStart bt tx)
      | _ => none
    else if tag = ('c' :: 'o' :: 'n' :: 't' :: 'e' :: 'n' :: 't' :: '_' :: 'b' :: 'l' :: 'o' :: 'c' :: 'k' :: '_' :: 'd' :: 'e' :: 'l' :: 't' :: 'a' :: []) then do
      let dj ← getField fs ('d' :: 'e' :: 'l' :: 't' :: 'a' :: [])
      match dj with
      | Json.jobj dfs => do
        let dt ← reqStrField dfs ('t' :: 'y' :: 'p' :: 'e' :: [])
        let tx ← reqStrField dfs ('t' :: 'e' :: 'x' :: 't' :: [])
        pure (ClaudeStreamEvent.ContentBlockDelta ⟨dt, tx⟩)
      | _ => none
    else if tag = ('c' :: 'o' :: 'n' :: 't' :: 'e' :: 'n' :: 't' :: '_' :: 'b' :: 'l' :: 'o' :: 'c' :: 'k' :: '_' :: 's' :: 't' :: 'o' :: 'p' :: []) then
      pure ClaudeStreamEvent.ContentBlockStop
    else if tag = ('m' :: 'e' :: 's' :: 's' :: 'a' :: 'g' :: 'e' :: '_' :: 'd' :: 'e' :: 'l' :: 't' :: 'a' :: []) then do
      let dj ← getField fs ('d' :: 'e' :: 'l' :: 't' :: 'a' :: [])
      let sr ←
        match dj with
        | Json.jobj dfs =>
          optStrField dfs ('s' :: 't' :: 'o' :: 'p' :: '_' :: 'r' :: 'e' :: 'a' :: 's' :: 'o' :: 'n' :: [])
        | _ => none
      let uj ← getField fs ('u' :: 's' :: 'a' :: 'g' :: 'e' :: [])
      let u ← parseClaudeUsageDelta uj
      pure (ClaudeStreamEvent.MessageDelta ⟨sr⟩ u)
    else if tag = ('m' :: 'e' :: 's' :: 's' :: 'a' :: 'g' :: 'e' :: '_' :: 's' :: 't' :: 'o' :: 'p' :: []) then
      pure ClaudeStreamEvent.MessageStop
    else if tag = ('e' :: 'r' :: 'r' :: 'o' :: 'r' :: []) then do
      let ej ← getField fs ('e' :: 'r' :: 'r' :: 'o' :: 'r' :: [])
      match ej with
      | Json.jobj efs => do
        let et ← reqStrField efs ('t' :: 'y' :: 'p' :: 'e' :: [])
        let ms ← reqStrField efs ('m' :: 'e' :: 's' :: 's' :: 'a' :: 'g' :: 'e' :: [])
        pure (ClaudeStreamEvent.Error ⟨et, ms⟩)
      | _ => none
    else if tag = ('p' :: 'i' :: 'n' :: 'g' :: []) then
      pure ClaudeStreamEvent.Ping
    else none
  | _ => none

/-!
The streaming orchestration of llm_client.rs.  HTTP transport and the Tauri
event sink are external collaborators: the network is an input (`HttpNet`)
carrying the send outcome, the response status, and the ordered stream of
chunk results; each chunk carries the value the monotone clock
(`request_start_time.elapsed().as_micros()`) would return while that chunk
is processed.  `app.emit` calls become an ordered event list.  Sampling
parameters `temperature`/`top_p` are `f32` pass-through values that the
code never inspects; they are left out of the request model.
-/

inductive LLMProvider where
  | OpenAI | Claude | Groq | Ollama | OpenRouter | OpenAICompatible
deriving DecidableEq

/-- `provider_name` (llm_client.rs line 902). -/
def provider_name : LLMProvider → List Char
  | LLMProvider.OpenAI => "OpenAI".toList
  | LLMProvider.Claude => "Claude".toList
  | LLMProvider.Groq => "Groq".toList
  | LLMProvider.Ollama => "Ollama".toList
  | LLMProvider.OpenRouter => "OpenRouter".toList
  | LLMProvider.OpenAICompatible => "OpenAI Compatible".toList

structure ChatMessage where
  role : List Char
  content : List Char
deriving DecidableEq

/-- The three Tauri events `llm:chat:token` / `llm:chat:done` /
`llm:chat:error` (payload fields as in `StreamTokenPayload`,
`StreamDonePayload`, `StreamErrorPayload`; the constant `request_id` tag is
omitted). -/
inductive Ev where
  | token (content_delta : List Char)
  | done (usage : Option StreamUsage) (finish_reason : Option (List Char))
      (model : List Char) (provider : List Char) (ttft_us : Option Nat)
  | error (message : List Char)
deriving DecidableEq

/-- One item of `response.bytes_stream()`. -/
inductive ChunkResult where
  | ok (bytes : List Nat)
  | err (msg : List Char)
deriving DecidableEq

/-- The externally-determined outcome of the HTTP exchange. -/
structure HttpNet where
  transport_error : Option (List Char)
  status_success : Bool
  error_body : List Char
  chunks : List (ChunkResult × Nat)
  end_time : Nat
deriving DecidableEq

/-- The request the code would hand to reqwest (`none` when the function
returns before `client.post`). -/
structure HttpRequest where
  url : List Char
  headers : List (List Char × List Char)
  body_model : List Char
  body_messages : List ChatMessage
  body_stream : Bool
  body_max_tokens : Option Nat
  body_system : Option (List Char)
deriving DecidableEq

/-- `str::trim_end_matches('/')`. -/
def stripTrailingSlashes (s : List Char) : List Char :=
  ((s.reverse.dropWhile (fun c => c = '/'))).reverse

/-- Endpoint resolution of `stream_chat_openai_compatible` (llm_client.rs
lines 1027-1059; the same match appears in `_generate_summary_streaming`,
lines 588-620). -/
def resolveOA (provider : LLMProvider) (ollama_endpoint openai_compatible_endpoint : Option (List Char)) :
    Except (List Char) (List Char) :=
  match provider with
  | LLMProvider.OpenAI => Except.ok ("https://api.openai.com/v1/chat/completions".toList)
  | LLMProvider.Groq => Except.ok ("https://api.groq.com/openai/v1/chat/completions".toList)
  | LLMProvider.OpenRouter => Except.ok ("https://openrouter.ai/api/v1/chat/completions".toList)
  | LLMProvider.Ollama =>
    Except.ok ((ollama_endpoint.getD ("http://localhost:11434".toList)) ++ "/v1/chat/completions".toList)
  | LLMProvider.OpenAICompatible =>
    match openai_compatible_endpoint with
    | none => Except.error ("OpenAI Compatible endpoint not configured".toList)
    | some base => Except.ok (stripTrailingSlashes base ++ "/chat/completions".toList)
  | LLMProvider.Claude => Except.error ("Unsupported provider for OpenAI-compatible streaming".toList)

/-- `HeaderValue::from_str` succeeds on visible characters plus tab. -/
def validHeaderValue (s : List Char) : Bool :=
  s.all (fun c => c.toNat = 9 ∨ (32 ≤ c.toNat ∧ c.toNat ≠ 127))

/-- Header construction of `stream_chat_openai_compatible` (lines
1061-1075): a bearer token unless the key is empty and the provider is the
generic compatible one, then the content type. -/
def buildOAHeaders (provider : LLMProvider) (api_key : List Char) :
    Except (List Char) (List (List Char × List Char)) :=
  if api_key ≠ [] ∨ provider ≠ LLMProvider.OpenAICompatible then
    if validHeaderValue ("Bearer ".toList ++ api_key) then
      Except.ok
        [("authorization".toList, "Bearer ".toList ++ api_key),
         ("content-type".toList, "application/json".toList)]
    else Except.error ("Invalid authorization header".toList)
  else Except.ok [("content-type".toList, "application/json".toList)]

/-- Header construction of `stream_chat_claude` (lines 1237-1255). -/
def buildClaudeHeaders (api_key : List Char) :
    Except (List Char) (List (List Char × List Char)) :=
  if validHeaderValue api_key then
    Except.ok
      [("x-api-key".toList, api_key),
       ("anthropic-version".toList, "2023-06-01".toList),
       ("content-type".toList, "application/json".toList)]
  else Except.error ("Invalid API key format".toList)

/-!
The OpenAI-compatible streaming loop (llm_client.rs lines 1106-1209).
State fields mirror the loop-local mutables.
-/

structure OAState where
  buffer : List Char
  finish_reason : Option (List Char)
  usage_stats : Option StreamUsage
  ttft_us : Option Nat
  first_token_received : Bool
  events : List Ev
deriving DecidableEq

def oaInit : OAState := ⟨[], none, none, none, false, []⟩

/-- The body of the `Ok(parsed_chunk)` branch (lines 1140-1177) at a point
where `elapsed()` reads `t`. -/
def oaApplyParsed (t : Nat) (st : OAState) (c : StreamChatChunk) : OAState :=
  let st1 :=
    match c.choices.head? with
    | some choice =>
      let stA :=
        match choice.delta.content with
        | some content =>
          if content ≠ [] then
            let stT :=
              if ¬ st.first_token_received then
                { st with first_token_received := true, ttft_us := some t }
              else st
            { stT with events := stT.events ++ [Ev.token content] }
          else st
        | none => st
      match choice.finish_reason with
      | some r => { stA with finish_reason := some r }
      | none => stA
    | none => st
  match c.usage with
  | some u => { st1 with usage_stats := some ⟨u.prompt_tokens, u.completion_tokens, u.total_tokens⟩ }
  | none => st1

/-- One `data:` payload: parse, apply, or skip on parse failure (the
`Err(e) => warn!` branch). -/
def oaApplyData (t : Nat) (st : OAState) (payload : List Char) : OAState :=
  match (parseJsonText payload).bind parseStreamChatChunk with
  | some c => oaApplyParsed t st c
  | none => st

/-- One byte chunk: lossy-convert, append to the buffer, drain complete
blocks and run the line loop on each (payload processing never touches the
buffer, so draining first is equivalent to the interleaved `while`). -/
def oaProcessChunk (t : Nat) (st : OAState) (bytes : List Nat) : OAState :=
  let p := drain (st.buffer ++ utf8Lossy bytes)
  p.1.foldl (fun s block => (blockDatas block).foldl (oaApplyData t) s)
    { st with buffer := p.2 }

/-- The `while let Some(chunk_result) = stream.next().await` loop; a
transport error mid-stream returns early. -/
def oaLoop (st : OAState) : List (ChunkResult × Nat) → OAState × Option (List Char)
  | [] => (st, none)
  | (ChunkResult.ok bytes, t) :: rest => oaLoop (oaProcessChunk t st bytes) rest
  | (ChunkResult.err m, _) :: _ => (st, some ("Stream error: ".toList ++ m))

/-- `stream_chat_openai_compatible` (llm_client.rs lines 1012-1210):
returns the issued request (if any), the emitted events, and the `Err`
message (if any). -/
def stream_chat_openai_compatible (provider : LLMProvider) (model_name api_key : List Char)
    (messages : List ChatMessage) (ollama_endpoint openai_compatible_endpoint : Option (List Char))
    (max_tokens : Option Nat) (net : HttpNet) :
    Option HttpRequest × List Ev × Option (List Char) :=
  match resolveOA provider ollama_endpoint openai_compatible_endpoint with
  | Except.error e => (none, [], some e)
  | Except.ok url =>
    match buildOAHeaders provider api_key with
    | Except.error e => (none, [], some e)
    | Except.ok headers =>
      let req : HttpRequest := ⟨url, headers, model_name, messages, true, max_tokens, none⟩
      match net.transport_error with
      | some e => (some req, [], some ("Failed to send streaming request: ".toList ++ e))
      | none =>
        if ¬ net.status_success then
          (some req, [], some ("Streaming API request failed: ".toList ++ net.error_body))
        else
          let r := oaLoop oaInit net.chunks
          match r.2 with
          | some e => (some req, r.1.events, some e)
          | none =>
            (some req,
              r.1.events ++
                [Ev.done r.1.usage_stats r.1.finish_reason model_name
                  (provider_name provider) r.1.ttft_us],
              none)

/-!
The Claude streaming loop (llm_client.rs lines 1295-1412).
-/

structure CLState where
  buffer : List Char
  finish_reason : Option (List Char)
  usage_input : Option Nat
  usage_output : Option Nat
  ttft_us : Option Nat
  first_token_received : Bool
  events : List Ev
deriving DecidableEq

def clInit : CLState := ⟨[], none, none, none, none, false, []⟩

/-- One parsed Claude event (lines 1331-1366); `Error` returns `Err`
immediately. -/
def clApplyEvent (t : Nat) (st : CLState) (ev : ClaudeStreamEvent) :
    CLState × Option (List Char) :=
  match ev with
  | ClaudeStreamEvent.MessageStart m =>
    ({ st with usage_input :=
        match m.usage.input_tokens with
        | some i => some i
        | none => st.usage_input }, none)
  | ClaudeStreamEvent.ContentBlockDelta d =>
    let st1 :=
      if ¬ st.first_token_received ∧ d.text ≠ [] then
        { st with first_token_received := true, ttft_us := some t }
      else st
    ({ st1 with events := st1.events ++ [Ev.token d.text] }, none)
  | ClaudeStreamEvent.MessageDelta d u =>
    let st1 :=
      match d.stop_reason with
      | some r => { st with finish_reason := some r }
      | none => st
    ({ st1 with usage_output :=
        match u.output_tokens with
        | some o => some o
        | none => st1.usage_output }, none)
  | ClaudeStreamEvent.Error e => (st, some ("Claude error: ".toList ++ e.message))
  | _ => (st, none)

/-- One SSE block: take the last `data:` line, parse it, apply the event;
a missing data line or a parse failure is a no-op. -/
def clApplyBlock (t : Nat) (st : CLState) (block : List Char) :
    CLState × Option (List Char) :=
  match (claudeFields block).2 with
  | none => (st, none)
  | some d =>
    match (parseJsonText d).bind parseClaudeStreamEvent with
    | none => (st, none)
    | some ev => clApplyEvent t st ev

def clApplyBlocks (t : Nat) (st : CLState) : List (List Char) → CLState × Option (List Char)
  | [] => (st, none)
  | b :: bs =>
    match clApplyBlock t st b with
    | (st1, none) => clApplyBlocks t st1 bs
    | r => r

def clProcessChunk (t : Nat) (st : CLState) (bytes : List Nat) :
    CLState × Option (List Char) :=
  let p := drain (st.buffer ++ utf8Lossy bytes)
  clApplyBlocks t { st with buffer := p.2 } p.1

def clLoop (st : CLState) : List (ChunkResult × Nat) → CLState × Option (List Char)
  | [] => (st, none)
  | (ChunkResult.ok bytes, t) :: rest =>
    match clProcessChunk t st bytes with
    | (st1, none) => clLoop st1 rest
    | r => r
  | (ChunkResult.err m, _) :: _ => (st, some ("Claude stream error: ".toList ++ m))

/-- The final usage combination of `stream_chat_claude` (lines 1382-1393);
`i + o` is a `u32` addition. -/
def combineClaudeUsage (i o : Option Nat) : Option StreamUsage :=
  if i.isSome ∨ o.isSome then
    some ⟨i, o,
      match i, o with
      | some a, some b => some ((a + b) % 2 ^ 32)
      | _, _ => none⟩
  else none

/-- `stream_chat_claude` (llm_client.rs lines 1213-1412). -/
def stream_chat_claude (model_name api_key : List Char) (messages : List ChatMessage)
    (max_tokens : Option Nat) (net : HttpNet) :
    Option HttpRequest × List Ev × Option (List Char) :=
  let system_prompt :=
    ((messages.find? (fun m => m.role = "system".toList)).map (fun m => m.content)).getD []
  let user_messages := messages.filter (fun m => m.role ≠ "system".toList)
  match buildClaudeHeaders api_key with
  | Except.error e => (none, [], some e)
  | Except.ok headers =>
    let req : HttpRequest :=
      ⟨"https://api.anthropic.com/v1/messages".toList, headers, model_name, user_messages,
        true, some (max_tokens.getD 2048),
        if system_prompt = [] then none else some system_prompt⟩
    match net.transport_error with
    | some e => (some req, [], some ("Failed to send streaming request to Claude: ".toList ++ e))
    | none =>
      if ¬ net.status_success then
        (some req, [], some ("Claude streaming API request failed: ".toList ++ net.error_body))
      else
        let r := clLoop clInit net.chunks
        match r.2 with
        | some e => (some req, r.1.events, some e)
        | none =>
          (some req,
            r.1.events ++
              [Ev.done (combineClaudeUsage r.1.usage_input r.1.usage_output)
                r.1.finish_reason model_name ("Claude".toList) r.1.ttft_us],
            none)

/-- The `match result` tail of `stream_chat` (llm_client.rs lines 991-1008):
emit `llm:chat:error` if the inner call returned `Err`. -/
def emitTerminalError (r : Option HttpRequest × List Ev × Option (List Char)) :
    Option HttpRequest × List Ev :=
  match r.2.2 with
  | none => (r.1, r.2.1)
  | some e => (r.1, r.2.1 ++ [Ev.error e])

/-- `stream_chat` (llm_client.rs lines 937-1009): dispatch on the provider,
then emit `llm:chat:error` if the inner call returned `Err`. -/
def stream_chat (provider : LLMProvider) (model_name api_key : List Char)
    (messages : List ChatMessage) (ollama_endpoint openai_compatible_endpoint : Option (List Char))
    (max_tokens : Option Nat) (net : HttpNet) : Option HttpRequest × List Ev :=
  match provider with
  | LLMProvider.Claude =>
    emitTerminalError (stream_chat_claude model_name api_key messages max_tokens net)
  | _ =>
    emitTerminalError
      (stream_chat_openai_compatible provider model_name api_key messages
        ollama_endpoint openai_compatible_endpoint max_tokens net)

/-!
Context-budget / chunk-selection logic of chat/processor.rs.  The Ollama
metadata fetch (`METADATA_CACHE.get_or_fetch`) lives outside the
reproduced sources; its outcome is an input: `some ctx` for a successful
fetch of `context_size = ctx`, `none` for a failed fetch.  `Nat`
subtraction is truncated, which is exactly `u64::saturating_sub`.
-/

/-- The `token_threshold` computation of `get_transcript_chunk_for_chat`
(processor.rs lines 36-58) and `build_chat_system_prompt` (lines 125-132):
`context_size.saturating_sub(300)` on fetch success, 4000 on fetch failure,
100000 for every non-Ollama provider. -/
def token_threshold (provider : LLMProvider) (fetched_context : Option Nat) : Nat :=
  if provider = LLMProvider.Ollama then
    match fetched_context with
    | some ctx => ctx - 300
    | none => 4000
  else 100000

/-- The branch condition
`provider != &LLMProvider::Ollama || total_tokens < token_threshold`
(processor.rs lines 64 and 140): `true` selects the single-pass (full
transcript) branch, `false` the chunking branch that evaluates
`chunk_text(text, token_threshold - 300, 100)`. -/
def usesFullTranscript (provider : LLMProvider) (fetched_context : Option Nat)
    (total_tokens : Nat) : Bool :=
  decide (provider ≠ LLMProvider.Ollama ∨ total_tokens < token_threshold provider fetched_context)

/-- `validate_chat_messages`, per-message loop (processor.rs lines 246-254). -/
def validateEach : List ChatMessage → Except (List Char) Unit
  | [] => Except.ok ()
  | m :: ms =>
    if m.role ≠ "user".toList ∧ m.role ≠ "assistant".toList ∧ m.role ≠ "system".toList then
      Except.error ("Invalid message role: ".toList ++ m.role)
    else if trimRust m.content = [] then
      Except.error ("Message content cannot be empty".toList)
    else validateEach ms

/-- `validate_chat_messages` (processor.rs lines 240-257). -/
def validate_chat_messages (messages : List ChatMessage) : Except (List Char) Unit :=
  if messages = [] then Except.error ("Message list cannot be empty".toList)
  else validateEach messages

/-- The ordering slice of `api_chat_send_message` (chat/commands.rs lines
127-178): messages are validated before the HTTP client is created and the
streaming task spawned; `Ok true` stands for "streaming started, an HTTP
request may now be issued". -/
def api_chat_send_message_validation (messages : List ChatMessage) :
    Except (List Char) Bool :=
  match validate_chat_messages messages with
  | Except.error e => Except.error e
  | Except.ok _ => Except.ok true

/-- C6. Threshold resolution: Ollama with a successful metadata fetch gets
`context_size.saturating_sub(300)` (truncated subtraction on `Nat`), Ollama
with a failed fetch gets the fixed default 4000, and every other provider
gets the fixed constant 100000 — and for every non-Ollama provider the
single-pass branch is always chosen, whatever the token count. -/
theorem token_threshold_resolution :
    (∀ ctx, token_threshold LLMProvider.Ollama (some ctx) = ctx - 300) ∧
    token_threshold LLMProvider.Ollama none = 4000 ∧
    (∀ p fetch total, p ≠ LLMProvider.Ollama →
      token_threshold p fetch = 100000 ∧ usesFullTranscript p fetch total = true) := by
  refine ⟨fun ctx => rfl, rfl, fun p fetch total hp => ⟨?_, ?_⟩⟩
  · simp [token_threshold, hp]
  · simp [usesFullTranscript]
    left
    exact hp

/-- C6 witness: a non-Ollama provider at a huge transcript still takes the
single-pass branch with threshold 100000. -/
theorem token_threshold_resolution_witness :
    LLMProvider.OpenAI ≠ LLMProvider.Ollama ∧
      token_threshold LLMProvider.OpenAI (some 1000) = 100000 ∧
      usesFullTranscript LLMProvider.OpenAI (some 1000) 999999 = true :=
  ⟨by decide, token_threshold_resolution.2.2 LLMProvider.OpenAI (some 1000) 999999 (by decide)⟩

/-- C10 (counterexample). The claim says the resolved threshold is at least
300 for every possible fetched context size whenever the chunking branch is
taken.  A fetched `context_size` of 400 resolves to threshold
`400 - 300 = 100 < 300`, and a 200-token transcript takes the chunking
branch (`usesFullTranscript = false`), where processor.rs evaluates
`token_threshold - 300`, i.e. `100 - 300`, an unsigned underflow. -/
theorem chunk_reserve_counterexample :
    usesFullTranscript LLMProvider.Ollama (some 400) 200 = false ∧
      token_threshold LLMProvider.Ollama (some 400) < 300 := by
  decide

/-- C10 (amended). Whenever the metadata fetch fails, or succeeds with a
context size of at least 600, the resolved Ollama threshold is at least
300, so the chunk-budget subtraction `token_threshold - 300` cannot
underflow. -/
theorem chunk_reserve_safe (fetch : Option Nat)
    (h : fetch = none ∨ ∃ ctx, fetch = some ctx ∧ 600 ≤ ctx) :
    300 ≤ token_threshold LLMProvider.Ollama fetch := by
  rcases h with h | ⟨ctx, rfl, hc⟩
  · subst h
    decide
  · simp [token_threshold]
    omega

/-- C10 witness: a 4300-token context resolves to threshold 4000 ≥ 300. -/
theorem chunk_reserve_safe_witness :
    (some 4300 = (none : Option Nat) ∨ ∃ ctx, (some 4300 : Option Nat) = some ctx ∧ 600 ≤ ctx) ∧
      300 ≤ token_threshold LLMProvider.Ollama (some 4300) :=
  ⟨Or.inr ⟨4300, rfl, by decide⟩,
    chunk_reserve_safe (some 4300) (Or.inr ⟨4300, rfl, by decide⟩)⟩

theorem validateEach_ok_iff (ms : List ChatMessage) :
    validateEach ms = Except.ok () ↔
      ∀ m ∈ ms,
        (m.role = "user".toList ∨ m.role = "assistant".toList ∨ m.role = "system".toList) ∧
          trimRust m.content ≠ [] := by
  induction ms with
  | nil => simp [validateEach]
  | cons m ms ih =>
    simp only [validateEach]
    by_cases hrole : m.role ≠ "user".toList ∧ m.role ≠ "assistant".toList ∧ m.role ≠ "system".toList
    · rw [if_pos hrole]
      simp only [List.mem_cons]
      constructor
      · intro h
        exact absurd h (by simp)
      · intro h
        have := (h m (Or.inl rfl)).1
        tauto
    · rw [if_neg hrole]
      by_cases hc : trimRust m.content = []
      · rw [if_pos hc]
        simp only [List.mem_cons]
        constructor
        · intro h
          exact absurd h (by simp)
        · intro h
          exact absurd hc (h m (Or.inl rfl)).2
      · rw [if_neg hc]
        rw [ih]
        constructor
        · intro h x hx
          rcases List.mem_cons.mp hx with hx | hx
          · subst hx
            exact ⟨by tauto, hc⟩
          · exact h x hx
        · intro h x hx
          exact h x (List.mem_cons_of_mem _ hx)

/-- C9. `validate_chat_messages` returns `Ok` exactly when the list is
non-empty and every message has one of the three roles and content that is
non-empty after trimming (hence an error for an empty list, an invalid
role, or blank content); and `api_chat_send_message` runs this validation
before the streaming task — and hence any HTTP request — is started. -/
theorem validate_chat_messages_spec :
    (∀ messages, validate_chat_messages messages = Except.ok () ↔
      (messages ≠ [] ∧ ∀ m ∈ messages,
        (m.role = "user".toList ∨ m.role = "assistant".toList ∨ m.role = "system".toList) ∧
          trimRust m.content ≠ [])) ∧
    (∀ messages e, validate_chat_messages messages = Except.error e →
      api_chat_send_message_validation messages = Except.error e) := by
  constructor
  · intro messages
    unfold validate_chat_messages
    by_cases hnil : messages = []
    · subst hnil
      simp
    · rw [if_neg hnil]
      rw [validateEach_ok_iff]
      constructor
      · intro h
        exact ⟨hnil, h⟩
      · intro h
        exact h.2
  · intro messages e h
    unfold api_chat_send_message_validation
    rw [h]

/-- C9 witness: the empty list is rejected with the exact error message and
no streaming task is started. -/
theorem validate_chat_messages_spec_witness :
    validate_chat_messages [] = Except.error ("Message list cannot be empty".toList) ∧
      api_chat_send_message_validation [] = Except.error ("Message list cannot be empty".toList) :=
  ⟨rfl, validate_chat_messages_spec.2 [] _ rfl⟩

/-- C8. Selecting the generic OpenAI-compatible provider without a base
endpoint yields the configuration error before any HTTP request (the
request slot of the model is `none`), and a supplied base endpoint has its
trailing slashes stripped (`trim_end_matches('/')`) before
`"/chat/completions"` is appended. -/
theorem openai_compatible_endpoint_spec :
    (∀ ep, resolveOA LLMProvider.OpenAICompatible ep none =
      Except.error ("OpenAI Compatible endpoint not configured".toList)) ∧
    (∀ model key msgs ep maxTok net,
      (stream_chat_openai_compatible LLMProvider.OpenAICompatible model key msgs ep none
          maxTok net).1 = none ∧
        (stream_chat_openai_compatible LLMProvider.OpenAICompatible model key msgs ep none
          maxTok net).2 =
          ([], some ("OpenAI Compatible endpoint not configured".toList))) ∧
    (∀ ep base, resolveOA LLMProvider.OpenAICompatible ep (some base) =
      Except.ok (stripTrailingSlashes base ++ "/chat/completions".toList)) := by
  refine ⟨fun ep => rfl, fun model key msgs ep maxTok net => ⟨rfl, rfl⟩, fun ep base => rfl⟩

/-- C7. Every non-Claude provider's request carries
`Authorization: Bearer <key>` unless the key is empty and the provider is
the generic compatible one; the Claude request instead carries `x-api-key`
and the fixed `anthropic-version: 2023-06-01` header and no bearer token. -/
theorem auth_header_spec :
    (∀ p key hs, p ≠ LLMProvider.Claude → buildOAHeaders p key = Except.ok hs →
      ((("authorization".toList, "Bearer ".toList ++ key) ∈ hs) ↔
        ¬(key = [] ∧ p = LLMProvider.OpenAICompatible))) ∧
    (∀ key hs, buildClaudeHeaders key = Except.ok hs →
      ("x-api-key".toList, key) ∈ hs ∧
        ("anthropic-version".toList, "2023-06-01".toList) ∈ hs ∧
        ∀ v, ("authorization".toList, v) ∉ hs) := by
  constructor
  · intro p key hs hp hok
    unfold buildOAHeaders at hok
    by_cases hcond : key ≠ [] ∨ p ≠ LLMProvider.OpenAICompatible
    · rw [if_pos hcond] at hok
      by_cases hv : validHeaderValue ("Bearer ".toList ++ key) = true
      · rw [if_pos hv] at hok
        cases hok
        constructor
        · intro _ hand
          rcases hcond with hc | hc
          · exact hc hand.1
          · exact hc hand.2
        · intro _
          exact List.mem_cons_self _ _
      · rw [if_neg hv] at hok
        cases hok
    · rw [if_neg hcond] at hok
      cases hok
      push_neg at hcond
      simp only [List.mem_singleton]
      constructor
      · intro h
        have : ("authorization".toList : List Char) = "content-type".toList := congrArg Prod.fst h
        exact absurd this (by decide)
      · intro h
        exact absurd ⟨hcond.1, hcond.2⟩ h
  · intro key hs hok
    unfold buildClaudeHeaders at hok
    by_cases hv : validHeaderValue key = true
    · rw [if_pos hv] at hok
      cases hok
      refine ⟨by simp, by simp, fun v hmem => ?_⟩
      simp only [List.mem_cons, List.not_mem_nil, or_false] at hmem
      rcases hmem with h | h | h
      · have h1 : ("authorization".toList : List Char) = "x-api-key".toList :=
          congrArg Prod.fst h
        exact absurd h1 (by decide)
      · have h1 : ("authorization".toList : List Char) = "anthropic-version".toList :=
          congrArg Prod.fst h
        exact absurd h1 (by decide)
      · have h1 : ("authorization".toList : List Char) = "content-type".toList :=
          congrArg Prod.fst h
        exact absurd h1 (by decide)
    · rw [if_neg hv] at hok
      cases hok

/-- C7 witness: Groq with key `"k"` gets the bearer header; Claude with key
`"k"` gets `x-api-key` and `anthropic-version` and no bearer header. -/
theorem auth_header_spec_witness :
    (("authorization".toList, "Bearer k".toList) ∈
        [("authorization".toList, "Bearer k".toList),
         ("content-type".toList, "application/json".toList)] ↔
      ¬(("k".toList : List Char) = [] ∧ LLMProvider.Groq = LLMProvider.OpenAICompatible)) ∧
      (("x-api-key".toList, "k".toList) ∈
          [("x-api-key".toList, "k".toList),
           ("anthropic-version".toList, "2023-06-01".toList),
           ("content-type".toList, "application/json".toList)] ∧
        ("anthropic-version".toList, "2023-06-01".toList) ∈
          [("x-api-key".toList, "k".toList),
           ("anthropic-version".toList, "2023-06-01".toList),
           ("content-type".toList, "application/json".toList)] ∧
        ∀ v, ("authorization".toList, v) ∉
          [("x-api-key".toList, "k".toList),
           ("anthropic-version".toList, "2023-06-01".toList),
           ("content-type".toList, "application/json".toList)]) :=
  ⟨by
    have h := auth_header_spec.1 LLMProvider.Groq ("k".toList) _ (by decide) rfl
    exact h,
   by
    have h := auth_header_spec.2 ("k".toList) _ rfl
    exact h⟩

/-!
Characterization of the OpenAI-compatible loop: events are append-only, a
payload contributes the token its parsed frame carries (or nothing), and
the TTFT cell is written at most once, at the first non-empty content.
-/

def isTokenEv : Ev → Bool
  | Ev.token _ => true
  | _ => false

/-- Tokens one parsed frame contributes (the first choice's non-empty
content delta, if any). -/
def oaTokensOfParsed (c : StreamChatChunk) : List Ev :=
  match c.choices.head? with
  | some choice =>
    match choice.delta.content with
    | some content => if content ≠ [] then [Ev.token content] else []
    | none => []
  | none => []

/-- Tokens one `data:` payload contributes (nothing if it fails to parse). -/
def oaTokensOfData (payload : List Char) : List Ev :=
  match (parseJsonText payload).bind parseStreamChatChunk with
  | some c => oaTokensOfParsed c
  | none => []

def oaTokensOfBlock (b : List Char) : List Ev :=
  ((blockDatas b).map oaTokensOfData).flatten

theorem oaApplyParsed_char (t : Nat) (st : OAState) (c : StreamChatChunk) :
    (oaApplyParsed t st c).buffer = st.buffer ∧
    (oaApplyParsed t st c).events = st.events ++ oaTokensOfParsed c ∧
    ((oaTokensOfParsed c = [] ∧ (oaApplyParsed t st c).ttft_us = st.ttft_us ∧
        (oaApplyParsed t st c).first_token_received = st.first_token_received) ∨
      (∃ d, d ≠ [] ∧ oaTokensOfParsed c = [Ev.token d] ∧
        ((st.first_token_received = true ∧ (oaApplyParsed t st c).ttft_us = st.ttft_us ∧
            (oaApplyParsed t st c).first_token_received = true) ∨
          (st.first_token_received = false ∧ (oaApplyParsed t st c).ttft_us = some t ∧
            (oaApplyParsed t st c).first_token_received = true)))) := by
  unfold oaApplyParsed oaTokensOfParsed
  rcases hch : c.choices.head? with _ | choice
  · rcases c.usage with _ | u <;> simp
  · rcases hcont : choice.delta.content with _ | content
    · rcases hfin : choice.finish_reason with _ | r <;> rcases c.usage with _ | u <;>
        simp [hcont, hfin]
    · by_cases hne : content = []
      · subst hne
        rcases hfin : choice.finish_reason with _ | r <;> rcases c.usage with _ | u <;>
          simp [hcont, hfin]
      · by_cases hf : st.first_token_received <;>
          rcases hfin : choice.finish_reason with _ | r <;> rcases c.usage with _ | u <;>
          simp [hcont, hfin, hne, hf]

theorem oaApplyData_char (t : Nat) (st : OAState) (d : List Char) :
    (oaApplyData t st d).buffer = st.buffer ∧
    (oaApplyData t st d).events = st.events ++ oaTokensOfData d ∧
    ((oaTokensOfData d = [] ∧ (oaApplyData t st d).ttft_us = st.ttft_us ∧
        (oaApplyData t st d).first_token_received = st.first_token_received) ∨
      (∃ dl, dl ≠ [] ∧ oaTokensOfData d = [Ev.token dl] ∧
        ((st.first_token_received = true ∧ (oaApplyData t st d).ttft_us = st.ttft_us ∧
            (oaApplyData t st d).first_token_received = true) ∨
          (st.first_token_received = false ∧ (oaApplyData t st d).ttft_us = some t ∧
            (oaApplyData t st d).first_token_received = true)))) := by
  unfold oaApplyData oaTokensOfData
  rcases (parseJsonText d).bind parseStreamChatChunk with _ | c
  · simp
  · exact oaApplyParsed_char t st c

/-- Characterization of a fold of `oaApplyData` over a payload list. -/
theorem oaFoldData_char (t : Nat) (ps : List (List Char)) (st : OAState) :
    (ps.foldl (oaApplyData t) st).buffer = st.buffer ∧
    (ps.foldl (oaApplyData t) st).events = st.events ++ (ps.map oaTokensOfData).flatten ∧
    ((ps.foldl (oaApplyData t) st).ttft_us = st.ttft_us ∧
        (ps.foldl (oaApplyData t) st).first_token_received = st.first_token_received ∨
      (ps.foldl (oaApplyData t) st).ttft_us = some t ∧
        (ps.foldl (oaApplyData t) st).first_token_received = true) := by
  induction ps generalizing st with
  | nil => simp
  | cons p ps ih =>
    simp only [List.foldl_cons, List.map_cons, List.flatten_cons]
    obtain ⟨hb, he, hd⟩ := oaApplyData_char t st p
    obtain ⟨ihb, ihe, ihd⟩ := ih (oaApplyData t st p)
    refine ⟨by rw [ihb, hb], by rw [ihe, he, List.append_assoc], ?_⟩
    rcases hd with ⟨_, h1, h2⟩ | ⟨dl, _, _, ⟨hfl, h1, h2⟩ | ⟨hfl, h1, h2⟩⟩
    · rcases ihd with ⟨i1, i2⟩ | ⟨i1, i2⟩
      · exact Or.inl ⟨by rw [i1, h1], by rw [i2, h2]⟩
      · exact Or.inr ⟨i1, i2⟩
    · rcases ihd with ⟨i1, i2⟩ | ⟨i1, i2⟩
      · exact Or.inl ⟨by rw [i1, h1], by rw [i2, h2, hfl]⟩
      · exact Or.inr ⟨i1, i2⟩
    · rcases ihd with ⟨i1, i2⟩ | ⟨i1, i2⟩
      · exact Or.inr ⟨by rw [i1, h1], by rw [i2, h2]⟩
      · exact Or.inr ⟨i1, i2⟩

/-- Characterization of a fold over blocks (one chunk's worth). -/
theorem oaFoldBlocks_char (t : Nat) (bs : List (List Char)) (st : OAState) :
    (bs.foldl (fun s block => (blockDatas block).foldl (oaApplyData t) s) st).buffer = st.buffer ∧
    (bs.foldl (fun s block => (blockDatas block).foldl (oaApplyData t) s) st).events =
      st.events ++ (bs.map oaTokensOfBlock).flatten ∧
    ((bs.foldl (fun s block => (blockDatas block).foldl (oaApplyData t) s) st).ttft_us = st.ttft_us ∧
        (bs.foldl (fun s block => (blockDatas block).foldl (oaApplyData t) s) st).first_token_received =
          st.first_token_received ∨
      (bs.foldl (fun s block => (blockDatas block).foldl (oaApplyData t) s) st).ttft_us = some t ∧
        (bs.foldl (fun s block => (blockDatas block).foldl (oaApplyData t) s) st).first_token_received =
          true) := by
  induction bs generalizing st with
  | nil => simp
  | cons b bs ih =>
    simp only [List.foldl_cons, List.map_cons, List.flatten_cons]
    obtain ⟨hb, he, hd⟩ := oaFoldData_char t (blockDatas b) st
    obtain ⟨ihb, ihe, ihd⟩ := ih ((blockDatas b).foldl (oaApplyData t) st)
    refine ⟨by rw [ihb, hb], by rw [ihe, he, List.append_assoc, oaTokensOfBlock], ?_⟩
    rcases hd with ⟨h1, h2⟩ | ⟨h1, h2⟩
    · rcases ihd with ⟨i1, i2⟩ | ⟨i1, i2⟩
      · exact Or.inl ⟨by rw [i1, h1], by rw [i2, h2]⟩
      · exact Or.inr ⟨i1, i2⟩
    · rcases ihd with ⟨i1, i2⟩ | ⟨i1, i2⟩
      · exact Or.inr ⟨by rw [i1, h1], by rw [i2, h2]⟩
      · exact Or.inr ⟨i1, i2⟩

/-- Characterization of `oaProcessChunk`. -/
theorem oaProcessChunk_char (t : Nat) (st : OAState) (bytes : List Nat) :
    (oaProcessChunk t st bytes).buffer = (drain (st.buffer ++ utf8Lossy bytes)).2 ∧
    (oaProcessChunk t st bytes).events =
      st.events ++ ((drain (st.buffer ++ utf8Lossy bytes)).1.map oaTokensOfBlock).flatten ∧
    ((oaProcessChunk t st bytes).ttft_us = st.ttft_us ∧
        (oaProcessChunk t st bytes).first_token_received = st.first_token_received ∨
      (oaProcessChunk t st bytes).ttft_us = some t ∧
        (oaProcessChunk t st bytes).first_token_received = true) := by
  unfold oaProcessChunk
  obtain ⟨hb, he, hd⟩ :=
    oaFoldBlocks_char t (drain (st.buffer ++ utf8Lossy bytes)).1
      { st with buffer := (drain (st.buffer ++ utf8Lossy bytes)).2 }
  exact ⟨hb, he, hd⟩

theorem oaTokensOfParsed_all (c : StreamChatChunk) :
    ∀ e ∈ oaTokensOfParsed c, isTokenEv e = true := by
  unfold oaTokensOfParsed
  rcases hch : c.choices.head? with _ | choice
  · simp
  · rcases hco : choice.delta.content with _ | content
    · simp [hco]
    · by_cases hne : content = [] <;> simp [hco, hne, isTokenEv]

theorem oaTokensOfData_all (d : List Char) :
    ∀ e ∈ oaTokensOfData d, isTokenEv e = true := by
  unfold oaTokensOfData
  rcases (parseJsonText d).bind parseStreamChatChunk with _ | c
  · simp
  · exact oaTokensOfParsed_all c

theorem oaTokensOfBlock_all (b : List Char) :
    ∀ e ∈ oaTokensOfBlock b, isTokenEv e = true := by
  intro e he
  unfold oaTokensOfBlock at he
  rw [List.mem_flatten] at he
  obtain ⟨l, hl, hel⟩ := he
  rw [List.mem_map] at hl
  obtain ⟨d, _, rfl⟩ := hl
  exact oaTokensOfData_all d e hel

/-- `oaLoop` consumes its input left to right and stops at the first
transport error. -/
theorem oaLoop_append (a b : List (ChunkResult × Nat)) (st : OAState) :
    oaLoop st (a ++ b) =
      match oaLoop st a with
      | (st1, none) => oaLoop st1 b
      | r => r := by
  induction a generalizing st with
  | nil => simp [oaLoop]
  | cons p rest ih =>
    obtain ⟨cr, t⟩ := p
    cases cr with
    | ok bytes =>
      simp only [List.cons_append, oaLoop]
      exact ih (oaProcessChunk t st bytes)
    | err m => simp [oaLoop]

/-- Events are append-only across the loop and every appended event is a
token event. -/
theorem oaLoop_events (chunks : List (ChunkResult × Nat)) (st : OAState) :
    ∃ ts, (oaLoop st chunks).1.events = st.events ++ ts ∧
      ∀ e ∈ ts, isTokenEv e = true := by
  induction chunks generalizing st with
  | nil => exact ⟨[], by simp [oaLoop], by simp⟩
  | cons p rest ih =>
    obtain ⟨cr, t⟩ := p
    cases cr with
    | ok bytes =>
      obtain ⟨ts1, he1, ha1⟩ := ih (oaProcessChunk t st bytes)
      obtain ⟨_, he0, _⟩ := oaProcessChunk_char t st bytes
      refine ⟨((drain (st.buffer ++ utf8Lossy bytes)).1.map oaTokensOfBlock).flatten ++ ts1,
        ?_, ?_⟩
      · simp only [oaLoop]
        rw [he1, he0, List.append_assoc]
      · intro e he
        rcases List.mem_append.mp he with h | h
        · rw [List.mem_flatten] at h
          obtain ⟨l, hl, hel⟩ := h
          rw [List.mem_map] at hl
          obtain ⟨blk, _, rfl⟩ := hl
          exact oaTokensOfBlock_all blk e hel
        · exact ha1 e h
    | err m => exact ⟨[], by simp [oaLoop], by simp⟩

/-- Once the first token is received, later chunks never touch the TTFT
cell. -/
theorem oaApplyData_stable (t : Nat) (st : OAState) (p : List Char)
    (h : st.first_token_received = true) :
    (oaApplyData t st p).ttft_us = st.ttft_us ∧
      (oaApplyData t st p).first_token_received = true := by
  obtain ⟨_, _, hd⟩ := oaApplyData_char t st p
  rcases hd with ⟨_, h1, h2⟩ | ⟨dl, _, _, ⟨_, h1, h2⟩ | ⟨hfl, _, _⟩⟩
  · exact ⟨h1, by rw [h2, h]⟩
  · exact ⟨h1, h2⟩
  · rw [h] at hfl
    cases hfl

theorem oaFoldData_stable (t : Nat) (ps : List (List Char)) (st : OAState)
    (h : st.first_token_received = true) :
    (ps.foldl (oaApplyData t) st).ttft_us = st.ttft_us ∧
      (ps.foldl (oaApplyData t) st).first_token_received = true := by
  induction ps generalizing st with
  | nil => exact ⟨rfl, h⟩
  | cons p ps ih =>
    obtain ⟨h1, h2⟩ := oaApplyData_stable t st p h
    obtain ⟨i1, i2⟩ := ih (oaApplyData t st p) h2
    simp only [List.foldl_cons]
    exact ⟨by rw [i1, h1], i2⟩

theorem oaFoldBlocks_stable (t : Nat) (bs : List (List Char)) (st : OAState)
    (h : st.first_token_received = true) :
    (bs.foldl (fun s block => (blockDatas block).foldl (oaApplyData t) s) st).ttft_us =
        st.ttft_us ∧
      (bs.foldl (fun s block => (blockDatas block).foldl (oaApplyData t) s) st).first_token_received =
        true := by
  induction bs generalizing st with
  | nil => exact ⟨rfl, h⟩
  | cons b bs ih =>
    obtain ⟨h1, h2⟩ := oaFoldData_stable t (blockDatas b) st h
    obtain ⟨i1, i2⟩ := ih ((blockDatas b).foldl (oaApplyData t) st) h2
    simp only [List.foldl_cons]
    exact ⟨by rw [i1, h1], i2⟩

theorem oaProcessChunk_stable (t : Nat) (st : OAState) (bytes : List Nat)
    (h : st.first_token_received = true) :
    (oaProcessChunk t st bytes).ttft_us = st.ttft_us ∧
      (oaProcessChunk t st bytes).first_token_received = true := by
  unfold oaProcessChunk
  exact oaFoldBlocks_stable t _ _ h

theorem oaLoop_stable (chunks : List (ChunkResult × Nat)) (st : OAState)
    (h : st.first_token_received = true) :
    (oaLoop st chunks).1.ttft_us = st.ttft_us ∧
      (oaLoop st chunks).1.first_token_received = true := by
  induction chunks generalizing st with
  | nil => exact ⟨rfl, h⟩
  | cons p rest ih =>
    obtain ⟨cr, t⟩ := p
    cases cr with
    | ok bytes =>
      obtain ⟨h1, h2⟩ := oaProcessChunk_stable t st bytes h
      obtain ⟨i1, i2⟩ := ih (oaProcessChunk t st bytes) h2
      exact ⟨by simp only [oaLoop]; rw [i1, h1], by simp only [oaLoop]; rw [i2]⟩
    | err m => exact ⟨rfl, h⟩

/-- Some non-empty token event has been emitted. -/
def hasNonEmptyTok (evs : List Ev) : Prop := ∃ d, d ≠ [] ∧ Ev.token d ∈ evs

/-- The TTFT bookkeeping invariant: the guard flag mirrors the cell, and the
cell is set exactly when a non-empty content token has been emitted. -/
def OAInv (st : OAState) : Prop :=
  st.first_token_received = st.ttft_us.isSome ∧
    (st.first_token_received = true ↔ hasNonEmptyTok st.events)

theorem oaApplyData_inv (t : Nat) (st : OAState) (p : List Char) (h : OAInv st) :
    OAInv (oaApplyData t st p) := by
  obtain ⟨hb, he, hd⟩ := oaApplyData_char t st p
  obtain ⟨h1, h2⟩ := h
  rcases hd with ⟨htok, e1, e2⟩ | ⟨dl, hdl, htok, ⟨hfl, e1, e2⟩ | ⟨hfl, e1, e2⟩⟩
  · constructor
    · rw [e1, e2, h1]
    · rw [e2, he, htok, List.append_nil]
      exact h2
  · constructor
    · rw [e1, e2, ← h1, hfl]
    · rw [e2, he, htok]
      refine iff_of_true rfl ⟨dl, hdl, List.mem_append_right _ (List.mem_singleton_self _)⟩
  · constructor
    · rw [e1, e2]
      rfl
    · rw [e2, he, htok]
      refine iff_of_true rfl ⟨dl, hdl, List.mem_append_right _ (List.mem_singleton_self _)⟩

theorem oaFoldData_inv (t : Nat) (ps : List (List Char)) (st : OAState) (h : OAInv st) :
    OAInv (ps.foldl (oaApplyData t) st) := by
  induction ps generalizing st with
  | nil => exact h
  | cons p ps ih =>
    simp only [List.foldl_cons]
    exact ih _ (oaApplyData_inv t st p h)

theorem oaFoldBlocks_inv (t : Nat) (bs : List (List Char)) (st : OAState) (h : OAInv st) :
    OAInv (bs.foldl (fun s block => (blockDatas block).foldl (oaApplyData t) s) st) := by
  induction bs generalizing st with
  | nil => exact h
  | cons b bs ih =>
    simp only [List.foldl_cons]
    exact ih _ (oaFoldData_inv t (blockDatas b) st h)

theorem oaProcessChunk_inv (t : Nat) (st : OAState) (bytes : List Nat) (h : OAInv st) :
    OAInv (oaProcessChunk t st bytes) := by
  unfold oaProcessChunk
  refine oaFoldBlocks_inv t _ _ ?_
  exact h

theorem oaLoop_inv (chunks : List (ChunkResult × Nat)) (st : OAState) (h : OAInv st) :
    OAInv (oaLoop st chunks).1 := by
  induction chunks generalizing st with
  | nil => exact h
  | cons p rest ih =>
    obtain ⟨cr, t⟩ := p
    cases cr with
    | ok bytes => exact ih _ (oaProcessChunk_inv t st bytes h)
    | err m => exact h

/-- Whatever bound holds of every chunk time and of the initial cell holds
of the final cell. -/
theorem oaLoop_ttft_bound (P : Nat → Prop) (chunks : List (ChunkResult × Nat)) (st : OAState)
    (hc : ∀ p ∈ chunks, P p.2) (hst : ∀ v, st.ttft_us = some v → P v) :
    ∀ v, (oaLoop st chunks).1.ttft_us = some v → P v := by
  induction chunks generalizing st with
  | nil => exact hst
  | cons p rest ih =>
    obtain ⟨cr, t⟩ := p
    cases cr with
    | ok bytes =>
      refine ih _ (fun q hq => hc q (List.mem_cons_of_mem _ hq)) ?_
      obtain ⟨_, _, hd⟩ := oaProcessChunk_char t st bytes
      rcases hd with ⟨h1, _⟩ | ⟨h1, _⟩
      · intro v hv
        rw [h1] at hv
        exact hst v hv
      · intro v hv
        rw [h1] at hv
        cases hv
        exact hc (ChunkResult.ok bytes, t) (List.mem_cons_self _ _)
    | err m => exact hst

/-!
Characterization of the Claude loop.
-/

def clTokensOfEvent : ClaudeStreamEvent → List Ev
  | ClaudeStreamEvent.ContentBlockDelta d => [Ev.token d.text]
  | _ => []

def claudeEvInput : ClaudeStreamEvent → Option Nat
  | ClaudeStreamEvent.MessageStart m => m.usage.input_tokens
  | _ => none

def claudeEvOutput : ClaudeStreamEvent → Option Nat
  | ClaudeStreamEvent.MessageDelta _ u => u.output_tokens
  | _ => none

def claudeEvErr : ClaudeStreamEvent → Option (List Char)
  | ClaudeStreamEvent.Error e => some ("Claude error: ".toList ++ e.message)
  | _ => none

/-- `if let Some(input) = ... { x = Some(input) }` -/
def updOpt (a x : Option Nat) : Option Nat :=
  match x with
  | some v => some v
  | none => a

theorem clApplyEvent_char (t : Nat) (st : CLState) (ev : ClaudeStreamEvent) :
    (clApplyEvent t st ev).1.buffer = st.buffer ∧
    (clApplyEvent t st ev).1.events = st.events ++ clTokensOfEvent ev ∧
    (clApplyEvent t st ev).1.usage_input = updOpt st.usage_input (claudeEvInput ev) ∧
    (clApplyEvent t st ev).1.usage_output = updOpt st.usage_output (claudeEvOutput ev) ∧
    (clApplyEvent t st ev).2 = claudeEvErr ev ∧
    (((∀ d, Ev.token d ∈ clTokensOfEvent ev → d = []) ∧
        (clApplyEvent t st ev).1.ttft_us = st.ttft_us ∧
        (clApplyEvent t st ev).1.first_token_received = st.first_token_received) ∨
      (∃ d, d ≠ [] ∧ clTokensOfEvent ev = [Ev.token d] ∧
        ((st.first_token_received = true ∧ (clApplyEvent t st ev).1.ttft_us = st.ttft_us ∧
            (clApplyEvent t st ev).1.first_token_received = true) ∨
          (st.first_token_received = false ∧ (clApplyEvent t st ev).1.ttft_us = some t ∧
            (clApplyEvent t st ev).1.first_token_received = true)))) := by
  cases ev with
  | MessageStart m =>
    simp [clApplyEvent, clTokensOfEvent, claudeEvInput, claudeEvOutput, claudeEvErr, updOpt]
  | ContentBlockStart bt tx =>
    simp [clApplyEvent, clTokensOfEvent, claudeEvInput, claudeEvOutput, claudeEvErr, updOpt]
  | ContentBlockDelta d =>
    by_cases hne : d.text = []
    · simp [clApplyEvent, clTokensOfEvent, claudeEvInput, claudeEvOutput, claudeEvErr, updOpt, hne]
    · by_cases hf : st.first_token_received <;>
        simp [clApplyEvent, clTokensOfEvent, claudeEvInput, claudeEvOutput, claudeEvErr,
          updOpt, hne, hf]
  | ContentBlockStop =>
    simp [clApplyEvent, clTokensOfEvent, claudeEvInput, claudeEvOutput, claudeEvErr, updOpt]
  | MessageDelta d u =>
    rcases hsr : d.stop_reason with _ | r <;>
      simp [clApplyEvent, clTokensOfEvent, claudeEvInput, claudeEvOutput, claudeEvErr, updOpt, hsr]
  | MessageStop =>
    simp [clApplyEvent, clTokensOfEvent, claudeEvInput, claudeEvOutput, claudeEvErr, updOpt]
  | Error e =>
    simp [clApplyEvent, clTokensOfEvent, claudeEvInput, claudeEvOutput, claudeEvErr, updOpt]
  | Ping =>
    simp [clApplyEvent, clTokensOfEvent, claudeEvInput, claudeEvOutput, claudeEvErr, updOpt]

/-- The event one SSE block contributes to the Claude loop, if any. -/
def claudeEvOfBlock (b : List Char) : Option ClaudeStreamEvent :=
  match (claudeFields b).2 with
  | none => none
  | some d => (parseJsonText d).bind parseClaudeStreamEvent

theorem clApplyBlock_eq (t : Nat) (st : CLState) (b : List Char) :
    clApplyBlock t st b =
      match claudeEvOfBlock b with
      | none => (st, none)
      | some ev => clApplyEvent t st ev := by
  unfold clApplyBlock claudeEvOfBlock
  rcases (claudeFields b).2 with _ | d
  · rfl
  · rcases (parseJsonText d).bind parseClaudeStreamEvent with _ | ev <;> rfl

def clInputStep (a : Option Nat) (ev : ClaudeStreamEvent) : Option Nat :=
  updOpt a (claudeEvInput ev)

def clOutputStep (a : Option Nat) (ev : ClaudeStreamEvent) : Option Nat :=
  updOpt a (claudeEvOutput ev)

theorem clApplyBlock_char (t : Nat) (st : CLState) (b : List Char) :
    (clApplyBlock t st b).1.buffer = st.buffer ∧
    (clApplyBlock t st b).1.usage_input =
      ((claudeEvOfBlock b).elim st.usage_input (clInputStep st.usage_input)) ∧
    (clApplyBlock t st b).1.usage_output =
      ((claudeEvOfBlock b).elim st.usage_output (clOutputStep st.usage_output)) ∧
    (clApplyBlock t st b).2 = (claudeEvOfBlock b).bind claudeEvErr ∧
    (∃ ts, (clApplyBlock t st b).1.events = st.events ++ ts ∧
      ∀ e ∈ ts, isTokenEv e = true) ∧
    (((clApplyBlock t st b).1.ttft_us = st.ttft_us ∧
        (clApplyBlock t st b).1.first_token_received = st.first_token_received) ∨
      (st.first_token_received = false ∧ (clApplyBlock t st b).1.ttft_us = some t ∧
        (clApplyBlock t st b).1.first_token_received = true)) := by
  rw [clApplyBlock_eq]
  rcases hev : claudeEvOfBlock b with _ | ev
  · exact ⟨rfl, rfl, rfl, rfl, ⟨[], by simp, by simp⟩, Or.inl ⟨rfl, rfl⟩⟩
  · obtain ⟨hb, he, hi, ho, herr, hd⟩ := clApplyEvent_char t st ev
    refine ⟨hb, hi, ho, herr, ⟨clTokensOfEvent ev, he, ?_⟩, ?_⟩
    · intro e hmem
      cases ev <;> simp [clTokensOfEvent] at hmem <;> simp [hmem, isTokenEv]
    · rcases hd with ⟨_, e1, e2⟩ | ⟨d, _, _, ⟨hfl, e1, e2⟩ | ⟨hfl, e1, e2⟩⟩
      · exact Or.inl ⟨e1, e2⟩
      · exact Or.inl ⟨e1, by rw [e2, hfl]⟩
      · exact Or.inr ⟨hfl, e1, e2⟩

theorem clApplyBlock_inv (t : Nat) (st : CLState) (b : List Char)
    (h : st.first_token_received = st.ttft_us.isSome ∧
      (st.first_token_received = true ↔ hasNonEmptyTok st.events)) :
    (clApplyBlock t st b).1.first_token_received = (clApplyBlock t st b).1.ttft_us.isSome ∧
      ((clApplyBlock t st b).1.first_token_received = true ↔
        hasNonEmptyTok (clApplyBlock t st b).1.events) := by
  rw [clApplyBlock_eq]
  rcases hev : claudeEvOfBlock b with _ | ev
  · exact h
  · obtain ⟨hb, he, hi, ho, herr, hd⟩ := clApplyEvent_char t st ev
    obtain ⟨h1, h2⟩ := h
    rcases hd with ⟨hno, e1, e2⟩ | ⟨d, hd0, htok, ⟨hfl, e1, e2⟩ | ⟨hfl, e1, e2⟩⟩
    · refine ⟨by rw [e1, e2, h1], ?_⟩
      rw [e2, he]
      constructor
      · intro hfl
        obtain ⟨d, hd0, hmem⟩ := h2.mp hfl
        exact ⟨d, hd0, List.mem_append_left _ hmem⟩
      · rintro ⟨d, hd0, hmem⟩
        rcases List.mem_append.mp hmem with hm | hm
        · exact h2.mpr ⟨d, hd0, hm⟩
        · exact absurd (hno d hm) hd0
    · refine ⟨by rw [e1, e2, ← h1, hfl], ?_⟩
      rw [e2, he, htok]
      exact iff_of_true rfl ⟨d, hd0, List.mem_append_right _ (List.mem_singleton_self _)⟩
    · refine ⟨by simp [e1, e2], ?_⟩
      rw [e2, he, htok]
      exact iff_of_true rfl ⟨d, hd0, List.mem_append_right _ (List.mem_singleton_self _)⟩

theorem clApplyBlocks_char (t : Nat) (bs : List (List Char)) (st : CLState) :
    (clApplyBlocks t st bs).1.buffer = st.buffer ∧
    (∃ ts, (clApplyBlocks t st bs).1.events = st.events ++ ts ∧
      ∀ e ∈ ts, isTokenEv e = true) ∧
    (((clApplyBlocks t st bs).1.ttft_us = st.ttft_us ∧
        (clApplyBlocks t st bs).1.first_token_received = st.first_token_received) ∨
      ((clApplyBlocks t st bs).1.ttft_us = some t ∧
        (clApplyBlocks t st bs).1.first_token_received = true)) := by
  induction bs generalizing st with
  | nil => exact ⟨rfl, ⟨[], by simp [clApplyBlocks], by simp⟩, Or.inl ⟨rfl, rfl⟩⟩
  | cons b bs ih =>
    obtain ⟨hb, hi, ho, herr, ⟨ts1, he1, ha1⟩, hd⟩ := clApplyBlock_char t st b
    simp only [clApplyBlocks]
    rcases hres : clApplyBlock t st b with ⟨st1, e?⟩
    rcases e? with _ | msg
    · obtain ⟨ihb, ⟨ts2, ihe, iha⟩, ihd⟩ := ih st1
      rw [hres] at hb hi ho herr he1 hd
      refine ⟨by rw [ihb, hb], ⟨ts1 ++ ts2, ?_, ?_⟩, ?_⟩
      · rw [ihe, he1, List.append_assoc]
      · intro e he
        rcases List.mem_append.mp he with h | h
        · exact ha1 e h
        · exact iha e h
      · rcases hd with ⟨e1, e2⟩ | ⟨hfl, e1, e2⟩
        · rcases ihd with ⟨i1, i2⟩ | ⟨i1, i2⟩
          · exact Or.inl ⟨by rw [i1, e1], by rw [i2, e2]⟩
          · exact Or.inr ⟨i1, i2⟩
        · rcases ihd with ⟨i1, i2⟩ | ⟨i1, i2⟩
          · exact Or.inr ⟨by rw [i1, e1], by rw [i2, e2]⟩
          · exact Or.inr ⟨i1, i2⟩
    · rw [hres] at hb hi ho herr he1 hd
      exact ⟨hb, ⟨ts1, he1, ha1⟩, by
        rcases hd with ⟨e1, e2⟩ | ⟨hfl, e1, e2⟩
        · exact Or.inl ⟨e1, e2⟩
        · exact Or.inr ⟨e1, e2⟩⟩

theorem clApplyBlocks_inv (t : Nat) (bs : List (List Char)) (st : CLState)
    (h : st.first_token_received = st.ttft_us.isSome ∧
      (st.first_token_received = true ↔ hasNonEmptyTok st.events)) :
    (clApplyBlocks t st bs).1.first_token_received = (clApplyBlocks t st bs).1.ttft_us.isSome ∧
      ((clApplyBlocks t st bs).1.first_token_received = true ↔
        hasNonEmptyTok (clApplyBlocks t st bs).1.events) := by
  induction bs generalizing st with
  | nil => exact h
  | cons b bs ih =>
    have hblk := clApplyBlock_inv t st b h
    simp only [clApplyBlocks]
    rcases hres : clApplyBlock t st b with ⟨st1, e?⟩
    rw [hres] at hblk
    rcases e? with _ | msg
    · exact ih st1 hblk
    · exact hblk

/-- Once set, the Claude TTFT cell is stable. -/
theorem clApplyBlocks_stable (t : Nat) (bs : List (List Char)) (st : CLState)
    (h : st.first_token_received = true) :
    (clApplyBlocks t st bs).1.ttft_us = st.ttft_us ∧
      (clApplyBlocks t st bs).1.first_token_received = true := by
  induction bs generalizing st with
  | nil => exact ⟨rfl, h⟩
  | cons b bs ih =>
    obtain ⟨_, _, _, _, _, hd⟩ := clApplyBlock_char t st b
    simp only [clApplyBlocks]
    rcases hres : clApplyBlock t st b with ⟨st1, e?⟩
    rw [hres] at hd
    have hst1 : st1.ttft_us = st.ttft_us ∧ st1.first_token_received = true := by
      rcases hd with ⟨e1, e2⟩ | ⟨hfl, e1, e2⟩
      · exact ⟨e1, by rw [e2, h]⟩
      · rw [h] at hfl
        cases hfl
    rcases e? with _ | msg
    · obtain ⟨i1, i2⟩ := ih st1 hst1.2
      exact ⟨by rw [i1, hst1.1], i2⟩
    · exact hst1

/-- Usage bookkeeping of a block list, given no error interrupted it. -/
theorem clApplyBlocks_usage (t : Nat) (bs : List (List Char)) (st : CLState)
    (hok : (clApplyBlocks t st bs).2 = none) :
    (clApplyBlocks t st bs).1.usage_input =
      (bs.filterMap claudeEvOfBlock).foldl clInputStep st.usage_input ∧
    (clApplyBlocks t st bs).1.usage_output =
      (bs.filterMap claudeEvOfBlock).foldl clOutputStep st.usage_output := by
  induction bs generalizing st with
  | nil => exact ⟨rfl, rfl⟩
  | cons b bs ih =>
    obtain ⟨hb, hi, ho, herr, _, _⟩ := clApplyBlock_char t st b
    simp only [clApplyBlocks] at hok ⊢
    rcases hres : clApplyBlock t st b with ⟨st1, e?⟩
    rw [hres] at hi ho herr hok
    rcases e? with _ | msg
    · obtain ⟨i1, i2⟩ := ih st1 hok
      rcases hev : claudeEvOfBlock b with _ | ev
      · rw [hev] at hi ho
        simp only [Option.elim] at hi ho
        simp only [List.filterMap_cons, hev]
        exact ⟨by rw [i1, hi], by rw [i2, ho]⟩
      · rw [hev] at hi ho
        simp only [Option.elim] at hi ho
        simp only [List.filterMap_cons, hev, List.foldl_cons]
        exact ⟨by rw [i1, hi], by rw [i2, ho]⟩
    · simp at hok

/-- Bytes of the stream, given every chunk result was `Ok`. -/
def chunkBytes : List (ChunkResult × Nat) → List (List Nat) :=
  List.filterMap (fun p =>
    match p.1 with
    | ChunkResult.ok b => some b
    | ChunkResult.err _ => none)

/-- The Claude events of a stream text, in arrival order. -/
def claudeEventsOfText (text : List Char) : List ClaudeStreamEvent :=
  (drain text).1.filterMap claudeEvOfBlock

theorem clProcessChunk_char (t : Nat) (st : CLState) (bytes : List Nat) :
    (clProcessChunk t st bytes).1.buffer = (drain (st.buffer ++ utf8Lossy bytes)).2 ∧
    (∃ ts, (clProcessChunk t st bytes).1.events = st.events ++ ts ∧
      ∀ e ∈ ts, isTokenEv e = true) ∧
    (((clProcessChunk t st bytes).1.ttft_us = st.ttft_us ∧
        (clProcessChunk t st bytes).1.first_token_received = st.first_token_received) ∨
      ((clProcessChunk t st bytes).1.ttft_us = some t ∧
        (clProcessChunk t st bytes).1.first_token_received = true)) := by
  unfold clProcessChunk
  obtain ⟨hb, he, hd⟩ :=
    clApplyBlocks_char t (drain (st.buffer ++ utf8Lossy bytes)).1
      { st with buffer := (drain (st.buffer ++ utf8Lossy bytes)).2 }
  exact ⟨hb, he, hd⟩

theorem clProcessChunk_usage (t : Nat) (st : CLState) (bytes : List Nat)
    (hok : (clProcessChunk t st bytes).2 = none) :
    (clProcessChunk t st bytes).1.usage_input =
      ((drain (st.buffer ++ utf8Lossy bytes)).1.filterMap claudeEvOfBlock).foldl
        clInputStep st.usage_input ∧
    (clProcessChunk t st bytes).1.usage_output =
      ((drain (st.buffer ++ utf8Lossy bytes)).1.filterMap claudeEvOfBlock).foldl
        clOutputStep st.usage_output := by
  unfold clProcessChunk at hok ⊢
  exact clApplyBlocks_usage t _ _ hok

theorem clProcessChunk_inv (t : Nat) (st : CLState) (bytes : List Nat)
    (h : st.first_token_received = st.ttft_us.isSome ∧
      (st.first_token_received = true ↔ hasNonEmptyTok st.events)) :
    (clProcessChunk t st bytes).1.first_token_received =
        (clProcessChunk t st bytes).1.ttft_us.isSome ∧
      ((clProcessChunk t st bytes).1.first_token_received = true ↔
        hasNonEmptyTok (clProcessChunk t st bytes).1.events) := by
  unfold clProcessChunk
  exact clApplyBlocks_inv t _ _ h

theorem clProcessChunk_stable (t : Nat) (st : CLState) (bytes : List Nat)
    (h : st.first_token_received = true) :
    (clProcessChunk t st bytes).1.ttft_us = st.ttft_us ∧
      (clProcessChunk t st bytes).1.first_token_received = true := by
  unfold clProcessChunk
  exact clApplyBlocks_stable t _ _ h

theorem clLoop_events (chunks : List (ChunkResult × Nat)) (st : CLState) :
    ∃ ts, (clLoop st chunks).1.events = st.events ++ ts ∧
      ∀ e ∈ ts, isTokenEv e = true := by
  induction chunks generalizing st with
  | nil => exact ⟨[], by simp [clLoop], by simp⟩
  | cons p rest ih =>
    obtain ⟨cr, t⟩ := p
    cases cr with
    | ok bytes =>
      obtain ⟨_, ⟨ts1, he1, ha1⟩, _⟩ := clProcessChunk_char t st bytes
      simp only [clLoop]
      rcases hres : clProcessChunk t st bytes with ⟨st1, e?⟩
      rw [hres] at he1
      rcases e? with _ | msg
      · obtain ⟨ts2, ihe, iha⟩ := ih st1
        refine ⟨ts1 ++ ts2, by rw [ihe, he1, List.append_assoc], ?_⟩
        intro e he
        rcases List.mem_append.mp he with h | h
        · exact ha1 e h
        · exact iha e h
      · exact ⟨ts1, he1, ha1⟩
    | err m => exact ⟨[], by simp [clLoop], by simp⟩

theorem clLoop_inv (chunks : List (ChunkResult × Nat)) (st : CLState)
    (h : st.first_token_received = st.ttft_us.isSome ∧
      (st.first_token_received = true ↔ hasNonEmptyTok st.events)) :
    (clLoop st chunks).1.first_token_received = (clLoop st chunks).1.ttft_us.isSome ∧
      ((clLoop st chunks).1.first_token_received = true ↔
        hasNonEmptyTok (clLoop st chunks).1.events) := by
  induction chunks generalizing st with
  | nil => exact h
  | cons p rest ih =>
    obtain ⟨cr, t⟩ := p
    cases cr with
    | ok bytes =>
      have hch := clProcessChunk_inv t st bytes h
      simp only [clLoop]
      rcases hres : clProcessChunk t st bytes with ⟨st1, e?⟩
      rw [hres] at hch
      rcases e? with _ | msg
      · exact ih st1 hch
      · exact hch
    | err m => exact h

theorem clLoop_stable (chunks : List (ChunkResult × Nat)) (st : CLState)
    (h : st.first_token_received = true) :
    (clLoop st chunks).1.ttft_us = st.ttft_us ∧
      (clLoop st chunks).1.first_token_received = true := by
  induction chunks generalizing st with
  | nil => exact ⟨rfl, h⟩
  | cons p rest ih =>
    obtain ⟨cr, t⟩ := p
    cases cr with
    | ok bytes =>
      have hch := clProcessChunk_stable t st bytes h
      simp only [clLoop]
      rcases hres : clProcessChunk t st bytes with ⟨st1, e?⟩
      rw [hres] at hch
      rcases e? with _ | msg
      · obtain ⟨i1, i2⟩ := ih st1 hch.2
        exact ⟨by rw [i1, hch.1], i2⟩
      · exact hch
    | err m => exact ⟨rfl, h⟩

theorem clLoop_ttft_bound (P : Nat → Prop) (chunks : List (ChunkResult × Nat)) (st : CLState)
    (hc : ∀ p ∈ chunks, P p.2) (hst : ∀ v, st.ttft_us = some v → P v) :
    ∀ v, (clLoop st chunks).1.ttft_us = some v → P v := by
  induction chunks generalizing st with
  | nil => exact hst
  | cons p rest ih =>
    obtain ⟨cr, t⟩ := p
    cases cr with
    | ok bytes =>
      obtain ⟨_, _, hd⟩ := clProcessChunk_char t st bytes
      simp only [clLoop]
      rcases hres : clProcessChunk t st bytes with ⟨st1, e?⟩
      rw [hres] at hd
      have hst1 : ∀ v, st1.ttft_us = some v → P v := by
        rcases hd with ⟨h1, _⟩ | ⟨h1, _⟩
        · intro v hv
          rw [h1] at hv
          exact hst v hv
        · intro v hv
          rw [h1] at hv
          cases hv
          exact hc (ChunkResult.ok bytes, t) (List.mem_cons_self _ _)
      rcases e? with _ | msg
      · exact ih st1 (fun q hq => hc q (List.mem_cons_of_mem _ hq)) hst1
      · exact hst1
    | err m => exact hst

/-- Usage bookkeeping of a whole uninterrupted Claude stream: the final
input/output counters fold the per-event updates over all events of all
complete blocks of the reassembled text, in arrival order. -/
theorem clLoop_ok_usage (chunks : List (ChunkResult × Nat)) (st : CLState)
    (hbuf : splitBlock st.buffer = none)
    (hok : (clLoop st chunks).2 = none) :
    (clLoop st chunks).1.usage_input =
      (claudeEventsOfText (st.buffer ++ ((chunkBytes chunks).map utf8Lossy).flatten)).foldl
        clInputStep st.usage_input ∧
    (clLoop st chunks).1.usage_output =
      (claudeEventsOfText (st.buffer ++ ((chunkBytes chunks).map utf8Lossy).flatten)).foldl
        clOutputStep st.usage_output := by
  induction chunks generalizing st with
  | nil =>
    simp [clLoop, chunkBytes, claudeEventsOfText, drain_none hbuf]
  | cons p rest ih =>
    obtain ⟨cr, t⟩ := p
    cases cr with
    | ok bytes =>
      simp only [clLoop] at hok ⊢
      rcases hres : clProcessChunk t st bytes with ⟨st1, e?⟩
      rcases e? with _ | msg
      · rw [hres] at hok
        have hok1 : (clLoop st1 rest).2 = none := hok
        have hchunkok : (clProcessChunk t st bytes).2 = none := by rw [hres]
        obtain ⟨hu1, hu2⟩ := clProcessChunk_usage t st bytes hchunkok
        obtain ⟨hb1, _, _⟩ := clProcessChunk_char t st bytes
        rw [hres] at hu1 hu2 hb1
        have hb1' : st1.buffer = (drain (st.buffer ++ utf8Lossy bytes)).2 := hb1
        have hbuf1 : splitBlock st1.buffer = none := by
          rw [hb1']
          exact splitBlock_drain_rest _
        obtain ⟨ih1, ih2⟩ := ih st1 hbuf1 hok1
        have htext : st.buffer ++
              ((chunkBytes ((ChunkResult.ok bytes, t) :: rest)).map utf8Lossy).flatten =
            (st.buffer ++ utf8Lossy bytes) ++ ((chunkBytes rest).map utf8Lossy).flatten := by
          simp only [chunkBytes, List.filterMap_cons]
          simp only [List.map_cons, List.flatten_cons, List.append_assoc]
        have hev : claudeEventsOfText (st.buffer ++
              ((chunkBytes ((ChunkResult.ok bytes, t) :: rest)).map utf8Lossy).flatten) =
            ((drain (st.buffer ++ utf8Lossy bytes)).1.filterMap claudeEvOfBlock) ++
              claudeEventsOfText (st1.buffer ++ ((chunkBytes rest).map utf8Lossy).flatten) := by
          rw [htext]
          unfold claudeEventsOfText
          simp only [drain_append (st.buffer ++ utf8Lossy bytes)]
          rw [hb1', List.filterMap_append]
        refine ⟨?_, ?_⟩
        · rw [hev, List.foldl_append]
          have hs : st1.usage_input =
              ((drain (st.buffer ++ utf8Lossy bytes)).1.filterMap claudeEvOfBlock).foldl
                clInputStep st.usage_input := hu1
          exact ih1.trans (by rw [hs])
        · rw [hev, List.foldl_append]
          have hs : st1.usage_output =
              ((drain (st.buffer ++ utf8Lossy bytes)).1.filterMap claudeEvOfBlock).foldl
                clOutputStep st.usage_output := hu2
          exact ih2.trans (by rw [hs])
      · rw [hres] at hok
        simp at hok
    | err m => simp [clLoop] at hok

/-- A stream whose every chunk result is `Ok` never makes the
OpenAI-compatible loop fail, and its events are exactly the tokens of the
complete blocks of the reassembled text. -/
theorem oaLoop_ok_run (bcs : List (List Nat × Nat)) (st : OAState)
    (hbuf : splitBlock st.buffer = none) :
    (oaLoop st (bcs.map (fun p => (ChunkResult.ok p.1, p.2)))).2 = none ∧
    (oaLoop st (bcs.map (fun p => (ChunkResult.ok p.1, p.2)))).1.events =
      st.events ++
        ((drain (st.buffer ++ (bcs.map (fun p => utf8Lossy p.1)).flatten)).1.map
          oaTokensOfBlock).flatten := by
  induction bcs generalizing st with
  | nil =>
    simp [oaLoop, drain_none hbuf]
  | cons p rest ih =>
    obtain ⟨bytes, t⟩ := p
    simp only [List.map_cons, oaLoop, List.flatten_cons]
    obtain ⟨hb1, he1, _⟩ := oaProcessChunk_char t st bytes
    have hbuf1 : splitBlock (oaProcessChunk t st bytes).buffer = none := by
      rw [hb1]
      exact splitBlock_drain_rest _
    obtain ⟨ih1, ih2⟩ := ih (oaProcessChunk t st bytes) hbuf1
    refine ⟨ih1, ?_⟩
    rw [ih2, he1, hb1]
    rw [show st.buffer ++ (utf8Lossy bytes ++ (rest.map (fun p => utf8Lossy p.1)).flatten) =
      (st.buffer ++ utf8Lossy bytes) ++ (rest.map (fun p => utf8Lossy p.1)).flatten by
        rw [List.append_assoc]]
    rw [drain_append (st.buffer ++ utf8Lossy bytes)]
    rw [List.map_append, List.flatten_append, List.append_assoc]

/-- `sseBlocks` is the block list of the whole text. -/
theorem sseBlocks_drain (chunks : List (List Char)) :
    sseBlocks chunks = (drain chunks.flatten).1 := by
  unfold sseBlocks
  rw [foldl_feedChunk chunks ([], []) (by simp [splitBlock])]
  simp

/-- Shape of the OpenAI-compatible call: some tokens followed by either a
clean `Ok` after the `Done` emission, or an `Err` with no terminal event
emitted yet. -/
theorem oa_model_shape (provider : LLMProvider) (model key : List Char)
    (msgs : List ChatMessage) (olEp cEp : Option (List Char)) (maxTok : Option Nat)
    (net : HttpNet) :
    ∃ toks, (∀ e ∈ toks, isTokenEv e = true) ∧
      ((∃ u f ttft,
          (stream_chat_openai_compatible provider model key msgs olEp cEp maxTok net).2 =
            (toks ++ [Ev.done u f model (provider_name provider) ttft], none)) ∨
        (∃ msg,
          (stream_chat_openai_compatible provider model key msgs olEp cEp maxTok net).2 =
            (toks, some msg))) := by
  unfold stream_chat_openai_compatible
  cases hres : resolveOA provider olEp cEp with
  | error e => exact ⟨[], by simp, Or.inr ⟨e, rfl⟩⟩
  | ok url =>
    cases hhdr : buildOAHeaders provider key with
    | error e => exact ⟨[], by simp, Or.inr ⟨e, rfl⟩⟩
    | ok hs =>
      cases htr : net.transport_error with
      | some e => exact ⟨[], by simp, Or.inr ⟨_, rfl⟩⟩
      | none =>
        by_cases hst : net.status_success = true
        · dsimp only
          rw [hst]
          rw [if_neg (show ¬¬true = true by simp)]
          obtain ⟨ts, hev, hall⟩ := oaLoop_events net.chunks oaInit
          have hev' : (oaLoop oaInit net.chunks).1.events = ts := by
            rw [hev]
            rfl
          rcases hloop : oaLoop oaInit net.chunks with ⟨stF, res⟩
          rw [hloop] at hev'
          rcases res with _ | msg
          · exact ⟨ts, hall, Or.inl ⟨stF.usage_stats, stF.finish_reason, stF.ttft_us,
              by rw [← hev']⟩⟩
          · exact ⟨ts, hall, Or.inr ⟨msg, by rw [← hev']⟩⟩
        · dsimp only
          rw [if_pos (by simpa using hst)]
          exact ⟨[], by simp, Or.inr ⟨_, rfl⟩⟩

/-- Shape of the Claude call. -/
theorem cl_model_shape (model key : List Char) (msgs : List ChatMessage)
    (maxTok : Option Nat) (net : HttpNet) :
    ∃ toks, (∀ e ∈ toks, isTokenEv e = true) ∧
      ((∃ u f ttft,
          (stream_chat_claude model key msgs maxTok net).2 =
            (toks ++ [Ev.done u f model ("Claude".toList) ttft], none)) ∨
        (∃ msg,
          (stream_chat_claude model key msgs maxTok net).2 = (toks, some msg))) := by
  unfold stream_chat_claude
  cases hhdr : buildClaudeHeaders key with
  | error e => exact ⟨[], by simp, Or.inr ⟨e, rfl⟩⟩
  | ok hs =>
    cases htr : net.transport_error with
    | some e => exact ⟨[], by simp, Or.inr ⟨_, rfl⟩⟩
    | none =>
      by_cases hst : net.status_success = true
      · dsimp only
        rw [hst]
        rw [if_neg (show ¬¬true = true by simp)]
        obtain ⟨ts, hev, hall⟩ := clLoop_events net.chunks clInit
        have hev' : (clLoop clInit net.chunks).1.events = ts := by
          rw [hev]
          rfl
        rcases hloop : clLoop clInit net.chunks with ⟨stF, res⟩
        rw [hloop] at hev'
        rcases res with _ | msg
        · exact ⟨ts, hall, Or.inl ⟨combineClaudeUsage stF.usage_input stF.usage_output,
            stF.finish_reason, stF.ttft_us, by rw [← hev']⟩⟩
        · exact ⟨ts, hall, Or.inr ⟨msg, by rw [← hev']⟩⟩
      · dsimp only
        rw [if_pos (by simpa using hst)]
        exact ⟨[], by simp, Or.inr ⟨_, rfl⟩⟩

theorem emitTerminalError_none {r : Option HttpRequest × List Ev × Option (List Char)}
    {evs : List Ev} (h : r.2 = (evs, none)) : emitTerminalError r = (r.1, evs) := by
  unfold emitTerminalError
  rw [show r.2.2 = none by rw [h]]
  rw [show r.2.1 = evs by rw [h]]

theorem emitTerminalError_some {r : Option HttpRequest × List Ev × Option (List Char)}
    {evs : List Ev} {e : List Char} (h : r.2 = (evs, some e)) :
    emitTerminalError r = (r.1, evs ++ [Ev.error e]) := by
  unfold emitTerminalError
  rw [show r.2.2 = some e by rw [h]]
  rw [show r.2.1 = evs by rw [h]]

theorem single_terminal_oa (provider : LLMProvider) (model key : List Char)
    (msgs : List ChatMessage) (olEp cEp : Option (List Char)) (maxTok : Option Nat)
    (net : HttpNet) :
    ∃ toks term,
      (emitTerminalError
          (stream_chat_openai_compatible provider model key msgs olEp cEp maxTok net)).2 =
        toks ++ [term] ∧
      (∀ e ∈ toks, isTokenEv e = true) ∧
      ((∃ u f m p t0, term = Ev.done u f m p t0) ∨ (∃ msg, term = Ev.error msg)) := by
  obtain ⟨toks, hall, hsh⟩ := oa_model_shape provider model key msgs olEp cEp maxTok net
  rcases hsh with ⟨u, f, ttft, hpair⟩ | ⟨msg, hpair⟩
  · refine ⟨toks, Ev.done u f model (provider_name provider) ttft, ?_, hall,
      Or.inl ⟨u, f, model, provider_name provider, ttft, rfl⟩⟩
    rw [emitTerminalError_none hpair]
  · refine ⟨toks, Ev.error msg, ?_, hall, Or.inr ⟨msg, rfl⟩⟩
    rw [emitTerminalError_some hpair]

theorem single_terminal_cl (model key : List Char) (msgs : List ChatMessage)
    (maxTok : Option Nat) (net : HttpNet) :
    ∃ toks term,
      (emitTerminalError (stream_chat_claude model key msgs maxTok net)).2 =
        toks ++ [term] ∧
      (∀ e ∈ toks, isTokenEv e = true) ∧
      ((∃ u f m p t0, term = Ev.done u f m p t0) ∨ (∃ msg, term = Ev.error msg)) := by
  obtain ⟨toks, hall, hsh⟩ := cl_model_shape model key msgs maxTok net
  rcases hsh with ⟨u, f, ttft, hpair⟩ | ⟨msg, hpair⟩
  · refine ⟨toks, Ev.done u f model ("Claude".toList) ttft, ?_, hall,
      Or.inl ⟨u, f, model, "Claude".toList, ttft, rfl⟩⟩
    rw [emitTerminalError_none hpair]
  · refine ⟨toks, Ev.error msg, ?_, hall, Or.inr ⟨msg, rfl⟩⟩
    rw [emitTerminalError_some hpair]

/-- C2. For every request — whatever the provider, the endpoint resolution
outcome, the HTTP outcome and the chunk stream — the emitted event list is
some token events followed by exactly one terminal event, a `Done`
(llm:chat:done, emitted on normal stream exhaustion) or an `Error`
(llm:chat:error, emitted by `stream_chat` on any `Err`: transport failure,
non-2xx response, provider error event): never zero terminal events and
never two. -/
theorem single_terminal_event (provider : LLMProvider) (model key : List Char)
    (msgs : List ChatMessage) (olEp cEp : Option (List Char)) (maxTok : Option Nat)
    (net : HttpNet) :
    ∃ toks term,
      (stream_chat provider model key msgs olEp cEp maxTok net).2 = toks ++ [term] ∧
      (∀ e ∈ toks, isTokenEv e = true) ∧
      ((∃ u f m p t0, term = Ev.done u f m p t0) ∨ (∃ msg, term = Ev.error msg)) := by
  cases provider
  case Claude => exact single_terminal_cl model key msgs maxTok net
  all_goals exact single_terminal_oa _ model key msgs olEp cEp maxTok net

theorem flatten_map_flatten {α β γ : Type _} (bs : List α) (f : α → List β) (g : β → List γ) :
    ((bs.map f).flatten.map g).flatten =
      (bs.map (fun b => ((f b).map g).flatten)).flatten := by
  induction bs with
  | nil => rfl
  | cons b bs ih =>
    simp only [List.map_cons, List.flatten_cons, List.map_append, List.flatten_append]
    rw [ih]

/-- C5. On a stream whose every chunk result is `Ok` (with a resolvable
endpoint and buildable headers), the OpenAI-compatible call never returns
`Err` — so no `llm:chat:error` is emitted and the stream is never cut
short — and the emitted events are exactly the token of every
successfully-parsed `data:` payload, in payload order, followed by the
single `Done`: a payload that fails JSON parsing contributes nothing and
the frames before and after it still produce their tokens. -/
theorem malformed_payload_skipped
    (provider : LLMProvider) (model key : List Char) (msgs : List ChatMessage)
    (olEp cEp : Option (List Char)) (maxTok : Option Nat) (errB : List Char) (endT : Nat)
    (url : List Char) (hs : List (List Char × List Char))
    (hres : resolveOA provider olEp cEp = Except.ok url)
    (hhdr : buildOAHeaders provider key = Except.ok hs)
    (bcs : List (List Nat × Nat)) :
    (stream_chat_openai_compatible provider model key msgs olEp cEp maxTok
        ⟨none, true, errB, bcs.map (fun p => (ChunkResult.ok p.1, p.2)), endT⟩).2.2 = none ∧
    ∃ u f ttft,
      (stream_chat_openai_compatible provider model key msgs olEp cEp maxTok
          ⟨none, true, errB, bcs.map (fun p => (ChunkResult.ok p.1, p.2)), endT⟩).2.1 =
        ((sseDecodeBytesOpenAI (bcs.map (fun p => p.1))).map oaTokensOfData).flatten ++
          [Ev.done u f model (provider_name provider) ttft] := by
  obtain ⟨hnone, hev⟩ := oaLoop_ok_run bcs oaInit (by simp [oaInit, splitBlock])
  have hspec :
      ((sseDecodeBytesOpenAI (bcs.map (fun p => p.1))).map oaTokensOfData).flatten =
        ((drain (oaInit.buffer ++ (bcs.map (fun p => utf8Lossy p.1)).flatten)).1.map
          oaTokensOfBlock).flatten := by
    unfold sseDecodeBytesOpenAI sseDecodeOpenAI
    rw [sseBlocks_drain]
    rw [flatten_map_flatten]
    have hmm : ((bcs.map (fun p => p.1)).map utf8Lossy).flatten =
        (bcs.map (fun p => utf8Lossy p.1)).flatten := by
      rw [List.map_map]
      rfl
    rw [hmm]
    rfl
  unfold stream_chat_openai_compatible
  rw [hres, hhdr]
  dsimp only
  rw [if_neg (show ¬¬true = true by simp)]
  rw [hnone]
  refine ⟨rfl,
    (oaLoop oaInit (bcs.map (fun p => (ChunkResult.ok p.1, p.2)))).1.usage_stats,
    (oaLoop oaInit (bcs.map (fun p => (ChunkResult.ok p.1, p.2)))).1.finish_reason,
    (oaLoop oaInit (bcs.map (fun p => (ChunkResult.ok p.1, p.2)))).1.ttft_us, ?_⟩
  show (oaLoop oaInit (bcs.map (fun p => (ChunkResult.ok p.1, p.2)))).1.events ++ _ = _
  rw [hspec, hev]
  simp [oaInit]

/-- C5 witness stream: a valid frame, a malformed frame, a valid frame, a
`[DONE]` marker. -/
def c5Bytes : List Nat :=
  ("data: \x7b\"choices\":[\x7b\"delta\":\x7b\"content\":\"Hel\"\x7d\x7d]\x7d\n\ndata: oops\n\ndata: \x7b\"choices\":[\x7b\"delta\":\x7b\"content\":\"lo\"\x7d\x7d]\x7d\n\ndata: [DONE]\n\n").toList.map Char.toNat

/-- C5 witness: the malformed middle frame is skipped and the surrounding
valid frames still produce their tokens, with a single `Done` at the end. -/
theorem malformed_payload_skipped_witness :
    resolveOA LLMProvider.OpenAI none none =
        Except.ok ("https://api.openai.com/v1/chat/completions".toList) ∧
    buildOAHeaders LLMProvider.OpenAI ("k".toList) =
        Except.ok
          [("authorization".toList, "Bearer ".toList ++ "k".toList),
           ("content-type".toList, "application/json".toList)] ∧
    ((stream_chat_openai_compatible LLMProvider.OpenAI ("m".toList) ("k".toList) [] none none
          none ⟨none, true, [], [((c5Bytes : List Nat), 5)].map (fun p => (ChunkResult.ok p.1, p.2)), 9⟩).2.2 =
        none ∧
      ∃ u f ttft,
        (stream_chat_openai_compatible LLMProvider.OpenAI ("m".toList) ("k".toList) [] none none
            none ⟨none, true, [], [((c5Bytes : List Nat), 5)].map (fun p => (ChunkResult.ok p.1, p.2)), 9⟩).2.1 =
          ((sseDecodeBytesOpenAI ([((c5Bytes : List Nat), 5)].map (fun p => p.1))).map
              oaTokensOfData).flatten ++
            [Ev.done u f ("m".toList) (provider_name LLMProvider.OpenAI) ttft]) :=
  ⟨rfl, rfl,
    malformed_payload_skipped LLMProvider.OpenAI ("m".toList) ("k".toList) [] none none none
      [] 9 _ _ rfl rfl [(c5Bytes, 5)]⟩

theorem getLast?_cons_or {α : Type _} (x : α) (xs : List α) :
    (x :: xs).getLast? = xs.getLast?.or (some x) := by
  cases xs with
  | nil => rfl
  | cons y ys =>
    rw [List.getLast?_cons_cons]
    have hne : (y :: ys).getLast?.isSome := by
      rw [List.getLast?_isSome]
      simp
    rw [Option.or_of_isSome hne]

theorem foldl_updOpt_eq {β : Type _} (f : β → Option Nat) (l : List β) (i : Option Nat) :
    l.foldl (fun a e => updOpt a (f e)) i = ((l.filterMap f).getLast?).or i := by
  induction l generalizing i with
  | nil => simp
  | cons e l ih =>
    rw [List.foldl_cons, List.filterMap_cons]
    cases hf : f e with
    | none => exact ih i
    | some v =>
      show l.foldl (fun a e => updOpt a (f e)) (updOpt i (some v)) =
        ((v :: l.filterMap f).getLast?).or i
      rw [show updOpt i (some v) = some v from rfl]
      rw [ih, getLast?_cons_or, Option.or_assoc]
      rfl

/-- All Claude events decoded from a byte stream, in arrival order. -/
def claudeStreamEvents (bcs : List (List Nat)) : List ClaudeStreamEvent :=
  (sseBlocks (bcs.map utf8Lossy)).filterMap claudeEvOfBlock

/-- C4. For every Claude stream that completes without a fatal error, the
`Done` event's usage combines the last `input_tokens` delivered by a
`message_start` event with the last `output_tokens` delivered by a
`message_delta` event; the `total_tokens` is their `u32` sum exactly when
both are present; and the usage object is present iff at least one of the
two counts was received. -/
theorem claude_usage_spec (model key : List Char) (msgs : List ChatMessage)
    (maxTok : Option Nat) (errB : List Char) (endT : Nat)
    (chunks : List (ChunkResult × Nat))
    (hok : (stream_chat_claude model key msgs maxTok
      ⟨none, true, errB, chunks, endT⟩).2.2 = none) :
    (∃ toks f ttft,
      (stream_chat_claude model key msgs maxTok ⟨none, true, errB, chunks, endT⟩).2.1 =
        toks ++
          [Ev.done
            (combineClaudeUsage
              ((claudeStreamEvents (chunkBytes chunks)).filterMap claudeEvInput).getLast?
              ((claudeStreamEvents (chunkBytes chunks)).filterMap claudeEvOutput).getLast?)
            f model ("Claude".toList) ttft]) ∧
    (∀ i o, (combineClaudeUsage i o).isSome = (i.isSome || o.isSome)) ∧
    (∀ a b, combineClaudeUsage (some a) (some b) =
      some ⟨some a, some b, some ((a + b) % 2 ^ 32)⟩) := by
  refine ⟨?_, ?_, ?_⟩
  · unfold stream_chat_claude at hok ⊢
    cases hhdr : buildClaudeHeaders key with
    | error e =>
      rw [hhdr] at hok
      simp at hok
    | ok hs =>
      rw [hhdr] at hok
      dsimp only at hok ⊢
      rw [if_neg (show ¬¬true = true by simp)] at hok ⊢
      have hres : (clLoop clInit chunks).2 = none := by
        rcases h2 : (clLoop clInit chunks).2 with _ | msg
        · rfl
        · rw [h2] at hok
          simp at hok
      obtain ⟨hu1, hu2⟩ := clLoop_ok_usage chunks clInit (by simp [clInit, splitBlock]) hres
      have hevents :
          claudeEventsOfText (clInit.buffer ++ ((chunkBytes chunks).map utf8Lossy).flatten) =
            claudeStreamEvents (chunkBytes chunks) := by
        unfold claudeStreamEvents claudeEventsOfText
        rw [sseBlocks_drain]
        rfl
      rw [hres]
      refine ⟨(clLoop clInit chunks).1.events, (clLoop clInit chunks).1.finish_reason,
        (clLoop clInit chunks).1.ttft_us, ?_⟩
      show (clLoop clInit chunks).1.events ++ [Ev.done _ _ _ _ _] = _
      have husage1 : (clLoop clInit chunks).1.usage_input =
          ((claudeStreamEvents (chunkBytes chunks)).filterMap claudeEvInput).getLast? := by
        rw [hu1, hevents]
        show (claudeStreamEvents (chunkBytes chunks)).foldl
          (fun a e => updOpt a (claudeEvInput e)) none = _
        rw [foldl_updOpt_eq, Option.or_none]
      have husage2 : (clLoop clInit chunks).1.usage_output =
          ((claudeStreamEvents (chunkBytes chunks)).filterMap claudeEvOutput).getLast? := by
        rw [hu2, hevents]
        show (claudeStreamEvents (chunkBytes chunks)).foldl
          (fun a e => updOpt a (claudeEvOutput e)) none = _
        rw [foldl_updOpt_eq, Option.or_none]
      rw [husage1, husage2]
  · intro i o
    cases i <;> cases o <;> simp [combineClaudeUsage]
  · intro a b
    simp [combineClaudeUsage]

/-- C4 witness stream: `message_start` with `input_tokens:10`, one
`content_block_delta` with text `"Hi"`, `message_delta` with
`stop_reason:"end_turn"` and `output_tokens:3`, then `message_stop`. -/
def c4Bytes : List Nat :=
  ("event: message_start\ndata: \x7b\"type\":\"message_start\",\"message\":\x7b\"id\":\"1\",\"model\":\"m\",\"role\":\"assistant\",\"usage\":\x7b\"input_tokens\":10\x7d\x7d\x7d\n\ndata: \x7b\"type\":\"content_block_delta\",\"delta\":\x7b\"type\":\"text_delta\",\"text\":\"Hi\"\x7d\x7d\n\ndata: \x7b\"type\":\"message_delta\",\"delta\":\x7b\"stop_reason\":\"end_turn\"\x7d,\"usage\":\x7b\"output_tokens\":3\x7d\x7d\n\ndata: \x7b\"type\":\"message_stop\"\x7d\n\n").toList.map Char.toNat

set_option maxRecDepth 100000 in
set_option maxHeartbeats 1000000 in
/-- C4 witness: the spec scenario yields `Done.usage` of prompt 10,
completion 3, total 13. -/
theorem claude_usage_spec_witness :
    (stream_chat_claude ("m".toList) ("k".toList) [] none
        ⟨none, true, [], [(ChunkResult.ok c4Bytes, 5)], 9⟩).2.2 = none ∧
    ((∃ toks f ttft,
        (stream_chat_claude ("m".toList) ("k".toList) [] none
            ⟨none, true, [], [(ChunkResult.ok c4Bytes, 5)], 9⟩).2.1 =
          toks ++
            [Ev.done
              (combineClaudeUsage
                ((claudeStreamEvents (chunkBytes [(ChunkResult.ok c4Bytes, 5)])).filterMap
                  claudeEvInput).getLast?
                ((claudeStreamEvents (chunkBytes [(ChunkResult.ok c4Bytes, 5)])).filterMap
                  claudeEvOutput).getLast?)
              f ("m".toList) ("Claude".toList) ttft]) ∧
      (∀ i o, (combineClaudeUsage i o).isSome = (i.isSome || o.isSome)) ∧
      (∀ a b, combineClaudeUsage (some a) (some b) =
        some ⟨some a, some b, some ((a + b) % 2 ^ 32)⟩)) ∧
    ((claudeStreamEvents (chunkBytes [(ChunkResult.ok c4Bytes, 5)])).filterMap
        claudeEvInput).getLast? = some 10 ∧
    ((claudeStreamEvents (chunkBytes [(ChunkResult.ok c4Bytes, 5)])).filterMap
        claudeEvOutput).getLast? = some 3 ∧
    combineClaudeUsage (some 10) (some 3) = some ⟨some 10, some 3, some 13⟩ :=
  ⟨by decide, claude_usage_spec ("m".toList) ("k".toList) [] none [] 9
      [(ChunkResult.ok c4Bytes, 5)] (by decide), by decide, by decide, by decide⟩

theorem clLoop_append (a b : List (ChunkResult × Nat)) (st : CLState) :
    clLoop st (a ++ b) =
      match clLoop st a with
      | (st1, none) => clLoop st1 b
      | r => r := by
  induction a generalizing st with
  | nil => simp [clLoop]
  | cons p rest ih =>
    obtain ⟨cr, t⟩ := p
    cases cr with
    | ok bytes =>
      simp only [List.cons_append, clLoop]
      rcases hres : clProcessChunk t st bytes with ⟨st1, e?⟩
      rcases e? with _ | msg
      · exact ih st1
      · rfl
    | err m => simp [clLoop]

/-- C3. TTFT bookkeeping of both streaming loops, run from the initial
state with the chunk-arrival clock values bounded by the total elapsed time
`endT` read at stream end: (a) the recorded TTFT never exceeds `endT` (it
is a `Nat`, so `0 ≤ TTFT` holds trivially, and the `Done` payload carries
this exact cell); (b) TTFT is present iff some non-empty content token
event was emitted before termination or error; (c) once present, no later
chunk changes it; (d) when it first becomes present while processing a
chunk, its value is that chunk's clock reading — the elapsed time at the
first event carrying non-empty content. -/
theorem ttft_spec (chunks : List (ChunkResult × Nat)) (endT : Nat)
    (hle : ∀ p ∈ chunks, p.2 ≤ endT) :
    ((∀ v, (oaLoop oaInit chunks).1.ttft_us = some v → v ≤ endT) ∧
      ((oaLoop oaInit chunks).1.ttft_us.isSome = true ↔
        hasNonEmptyTok (oaLoop oaInit chunks).1.events) ∧
      (∀ more, (oaLoop oaInit chunks).1.ttft_us.isSome = true →
        (oaLoop oaInit (chunks ++ more)).1.ttft_us = (oaLoop oaInit chunks).1.ttft_us) ∧
      (∀ pre bytes t post, chunks = pre ++ (ChunkResult.ok bytes, t) :: post →
        (oaLoop oaInit pre).1.ttft_us = none →
        (oaLoop oaInit (pre ++ [(ChunkResult.ok bytes, t)])).1.ttft_us.isSome = true →
        (oaLoop oaInit chunks).1.ttft_us = some t)) ∧
    ((∀ v, (clLoop clInit chunks).1.ttft_us = some v → v ≤ endT) ∧
      ((clLoop clInit chunks).1.ttft_us.isSome = true ↔
        hasNonEmptyTok (clLoop clInit chunks).1.events) ∧
      (∀ more, (clLoop clInit chunks).1.ttft_us.isSome = true →
        (clLoop clInit (chunks ++ more)).1.ttft_us = (clLoop clInit chunks).1.ttft_us) ∧
      (∀ pre bytes t post, chunks = pre ++ (ChunkResult.ok bytes, t) :: post →
        (clLoop clInit pre).1.ttft_us = none →
        (clLoop clInit (pre ++ [(ChunkResult.ok bytes, t)])).1.ttft_us.isSome = true →
        (clLoop clInit chunks).1.ttft_us = some t)) := by
  have hoaInv : OAInv oaInit := by
    constructor
    · rfl
    · refine iff_of_false (by simp [oaInit]) ?_
      rintro ⟨d, _, hmem⟩
      simp [oaInit] at hmem
  have hoaInvRun : ∀ cs, OAInv (oaLoop oaInit cs).1 := fun cs => oaLoop_inv cs oaInit hoaInv
  have hclInv : clInit.first_token_received = clInit.ttft_us.isSome ∧
      (clInit.first_token_received = true ↔ hasNonEmptyTok clInit.events) := by
    constructor
    · rfl
    · refine iff_of_false (by simp [clInit]) ?_
      rintro ⟨d, _, hmem⟩
      simp [clInit] at hmem
  have hclInvRun : ∀ cs, (clLoop clInit cs).1.first_token_received =
        (clLoop clInit cs).1.ttft_us.isSome ∧
      ((clLoop clInit cs).1.first_token_received = true ↔
        hasNonEmptyTok (clLoop clInit cs).1.events) :=
    fun cs => clLoop_inv cs clInit hclInv
  refine ⟨⟨?_, ?_, ?_, ?_⟩, ⟨?_, ?_, ?_, ?_⟩⟩
  · exact oaLoop_ttft_bound (· ≤ endT) chunks oaInit hle (by intro v hv; simp [oaInit] at hv)
  · obtain ⟨h1, h2⟩ := hoaInvRun chunks
    rw [← h1]
    exact h2
  · intro more hsome
    obtain ⟨h1, _⟩ := hoaInvRun chunks
    have hflag : (oaLoop oaInit chunks).1.first_token_received = true := by
      rw [h1, hsome]
    rw [oaLoop_append]
    rcases hrun : oaLoop oaInit chunks with ⟨st1, res⟩
    rw [hrun] at hflag
    rcases res with _ | msg
    · exact (oaLoop_stable more st1 hflag).1
    · rfl
  · intro pre bytes t post hsplit hnone hsome
    have hpre1 : oaLoop oaInit (pre ++ [(ChunkResult.ok bytes, t)]) =
        match oaLoop oaInit pre with
        | (st1, none) => oaLoop st1 [(ChunkResult.ok bytes, t)]
        | r => r := oaLoop_append pre [(ChunkResult.ok bytes, t)] oaInit
    rcases hrunp : oaLoop oaInit pre with ⟨stP, resP⟩
    rw [hrunp] at hpre1 hnone
    rcases resP with _ | msg
    · have hstep : oaLoop oaInit (pre ++ [(ChunkResult.ok bytes, t)]) =
          (oaProcessChunk t stP bytes, none) := hpre1
      rw [hstep] at hsome
      obtain ⟨_, _, hd⟩ := oaProcessChunk_char t stP bytes
      rcases hd with ⟨h1, _⟩ | ⟨h1, h2⟩
      · rw [h1, hnone] at hsome
        cases hsome
      · have hrest : oaLoop oaInit chunks =
            match oaLoop oaInit (pre ++ [(ChunkResult.ok bytes, t)]) with
            | (st1, none) => oaLoop st1 post
            | r => r := by
          rw [show chunks = (pre ++ [(ChunkResult.ok bytes, t)]) ++ post by
            rw [hsplit]; simp]
          exact oaLoop_append _ post oaInit
        rw [hstep] at hrest
        rw [hrest]
        have := (oaLoop_stable post (oaProcessChunk t stP bytes) h2).1
        rw [this, h1]
    · rw [hpre1] at hsome
      rw [hnone] at hsome
      cases hsome
  · exact clLoop_ttft_bound (· ≤ endT) chunks clInit hle (by intro v hv; simp [clInit] at hv)
  · obtain ⟨h1, h2⟩ := hclInvRun chunks
    rw [← h1]
    exact h2
  · intro more hsome
    obtain ⟨h1, _⟩ := hclInvRun chunks
    have hflag : (clLoop clInit chunks).1.first_token_received = true := by
      rw [h1, hsome]
    rw [clLoop_append]
    rcases hrun : clLoop clInit chunks with ⟨st1, res⟩
    rw [hrun] at hflag
    rcases res with _ | msg
    · exact (clLoop_stable more st1 hflag).1
    · rfl
  · intro pre bytes t post hsplit hnone hsome
    have hpre1 : clLoop clInit (pre ++ [(ChunkResult.ok bytes, t)]) =
        match clLoop clInit pre with
        | (st1, none) => clLoop st1 [(ChunkResult.ok bytes, t)]
        | r => r := clLoop_append pre [(ChunkResult.ok bytes, t)] clInit
    rcases hrunp : clLoop clInit pre with ⟨stP, resP⟩
    rw [hrunp] at hpre1 hnone
    rcases resP with _ | msg
    · obtain ⟨_, _, hd⟩ := clProcessChunk_char t stP bytes
      have hone : clLoop clInit (pre ++ [(ChunkResult.ok bytes, t)]) =
          match clProcessChunk t stP bytes with
          | (st1, none) => (st1, none)
          | r => r := hpre1
      rcases hstepr : clProcessChunk t stP bytes with ⟨stS, resS⟩
      rw [hstepr] at hd hone
      have hstS : (clLoop clInit (pre ++ [(ChunkResult.ok bytes, t)])).1 = stS := by
        rcases resS with _ | m2 <;> rw [hone]
      rw [hstS] at hsome
      rcases hd with ⟨h1, _⟩ | ⟨h1, h2⟩
      · rw [h1, hnone] at hsome
        cases hsome
      · have hrest : clLoop clInit chunks =
            match clLoop clInit (pre ++ [(ChunkResult.ok bytes, t)]) with
            | (st1, none) => clLoop st1 post
            | r => r := by
          rw [show chunks = (pre ++ [(ChunkResult.ok bytes, t)]) ++ post by
            rw [hsplit]; simp]
          exact clLoop_append _ post clInit
        rcases resS with _ | m2
        · have hone2 : clLoop clInit (pre ++ [(ChunkResult.ok bytes, t)]) = (stS, none) := hone
          rw [hone2] at hrest
          rw [hrest]
          have := (clLoop_stable post stS h2).1
          rw [this, h1]
        · have hone2 : clLoop clInit (pre ++ [(ChunkResult.ok bytes, t)]) = (stS, some m2) := hone
          rw [hone2] at hrest
          rw [hrest, h1]
    · rw [hpre1] at hsome
      rw [hnone] at hsome
      cases hsome

set_option maxRecDepth 100000 in
set_option maxHeartbeats 1000000 in
/-- C3 witness: on a concrete stream arriving at clock value 5 with total
time 9, TTFT is recorded as 5, is bounded by 9, and is present iff a
non-empty token was emitted. -/
theorem ttft_spec_witness :
    (∀ p ∈ [((ChunkResult.ok c5Bytes : ChunkResult), (5 : Nat))], p.2 ≤ 9) ∧
    (oaLoop oaInit [(ChunkResult.ok c5Bytes, 5)]).1.ttft_us = some 5 ∧
    (∀ v, (oaLoop oaInit [(ChunkResult.ok c5Bytes, 5)]).1.ttft_us = some v → v ≤ 9) ∧
    ((oaLoop oaInit [(ChunkResult.ok c5Bytes, 5)]).1.ttft_us.isSome = true ↔
      hasNonEmptyTok (oaLoop oaInit [(ChunkResult.ok c5Bytes, 5)]).1.events) :=
  ⟨by decide, by decide,
    (ttft_spec [(ChunkResult.ok c5Bytes, 5)] 9 (by decide)).1.1,
    (ttft_spec [(ChunkResult.ok c5Bytes, 5)] 9 (by decide)).1.2.1⟩
